import Mathlib

/-!
# TUI file explorer: directory listing, sorting and the navigation state

A shallow embedding of `internal/filesystem/directory.go` and of the state transitions of
`internal/ui/ui.go`.

Modelling conventions.
* Go strings are Lean strings (names are taken to be valid UTF-8, where the byte-wise order,
  prefix and substring tests of Go agree with the character-wise ones used here).
* `int64`, `int` values are `Int`; no arithmetic of the modelled code can overflow. Slice
  indices are `Nat`: they never go below zero in the modelled code.
* The operating system and the Go standard library are an explicit environment `Sys`
  (`os.ReadDir`, `filepath.Abs`, `filepath.Dir`, `filepath.Join`, `os.UserHomeDir`,
  `strings.ToLower`, ...), so every statement holds for all behaviours of these calls.
* `sort.Slice` is the pattern-defeating quicksort of Go's package `sort` (`pdqsort_func` of
  `zsortfunc.go`, Go 1.19 and later), function by function in the namespace `gosort`:
  insertion sort up to 12 elements, heap sort once the limit of bad pivots is used up,
  and the partitions in between. A slice is a list, read and swapped at indices; every
  loop carries a bound on its rounds as its first argument.
* The `tview` widgets are records holding what the code reads back from them: the items of a
  list and its current item, the text of a text view.
-/

/-! ## `sort.Slice` (Go standard library) -/

namespace gosort

variable {α : Type}

/-- `data.Less(i, j)`: the closure `less` on the elements at the indices `i` and `j`. -/
def lessAt (lt : α → α → Bool) (data : List α) (i j : Nat) : Bool :=
  match data[i]?, data[j]? with
  | some x, some y => lt x y
  | _, _ => false

/-- `data.Swap(i, j)`. -/
def swapAt (data : List α) (i j : Nat) : List α :=
  match data[i]?, data[j]? with
  | some x, some y => (data.set i y).set j x
  | _, _ => data

/-- The inner loop of `insertionSort_func`,
`for j := i; j > a && data.Less(j, j-1); j-- { data.Swap(j, j-1) }`, from `j` on. -/
def insertionInner (lt : α → α → Bool) (a : Nat) : Nat → List α → List α
  | 0, data => data
  | j + 1, data =>
    if j + 1 > a && lessAt lt data (j + 1) j then
      insertionInner lt a j (swapAt data (j + 1) j)
    else data

/-- The outer loop of `insertionSort_func`, `for i := a + 1; i < b; i++`, from `i` on; the
first argument bounds the number of rounds. -/
def insertionOuter (lt : α → α → Bool) (a b : Nat) : Nat → Nat → List α → List α
  | 0, _, data => data
  | fuel + 1, i, data =>
    if i < b then insertionOuter lt a b fuel (i + 1) (insertionInner lt a i data) else data

/-- `insertionSort_func(data, a, b)`. -/
def insertionSort (lt : α → α → Bool) (data : List α) (a b : Nat) : List α :=
  insertionOuter lt a b (b - a) (a + 1) data

/-- The loop of `siftDown_func(data, lo, hi, first)`, from `root` on. -/
def siftDown (lt : α → α → Bool) (hi first : Nat) : Nat → Nat → List α → List α
  | 0, _, data => data
  | fuel + 1, root, data =>
    let child := 2 * root + 1
    if child ≥ hi then data
    else
      let child :=
        if child + 1 < hi && lessAt lt data (first + child) (first + child + 1) then child + 1
        else child
      if !lessAt lt data (first + root) (first + child) then data
      else siftDown lt hi first fuel child (swapAt data (first + root) (first + child))

/-- The first loop of `heapSort_func`, `for i := (hi - 1) / 2; i >= 0; i--`: the argument is
`i + 1`. -/
def heapBuild (lt : α → α → Bool) (hi first : Nat) : Nat → List α → List α
  | 0, data => data
  | i + 1, data => heapBuild lt hi first i (siftDown lt hi first hi i data)

/-- The second loop of `heapSort_func`, `for i := hi - 1; i >= 0; i--`: the argument is
`i + 1`. -/
def heapPop (lt : α → α → Bool) (first : Nat) : Nat → List α → List α
  | 0, data => data
  | i + 1, data =>
    heapPop lt first i (siftDown lt i first i 0 (swapAt data first (first + i)))

/-- `heapSort_func(data, a, b)`. -/
def heapSort (lt : α → α → Bool) (data : List α) (a b : Nat) : List α :=
  let first := a
  let hi := b - a
  heapPop lt first hi (heapBuild lt hi first ((hi - 1) / 2 + 1) data)

/-- A loop `for i <= j && p(i) { i++ }`; the first argument bounds the number of rounds. -/
def scanUp (p : Nat → Bool) (j : Nat) : Nat → Nat → Nat
  | 0, i => i
  | fuel + 1, i => if i ≤ j && p i then scanUp p j fuel (i + 1) else i

/-- A loop `for i <= j && p(j) { j-- }`, from `j` on. -/
def scanDown (p : Nat → Bool) (i : Nat) : Nat → Nat
  | 0 => 0
  | j + 1 => if i ≤ j + 1 && p (j + 1) then scanDown p i j else j + 1

/-- The loop `for { ... }` of `partition_func`, with the state `data`, `i`, `j`. -/
def partitionLoop (lt : α → α → Bool) (a : Nat) : Nat → List α → Nat → Nat → List α × Nat × Nat
  | 0, data, i, j => (data, i, j)
  | fuel + 1, data, i, j =>
    let i := scanUp (fun k => lessAt lt data k a) j (j + 1 - i) i
    let j := scanDown (fun k => !lessAt lt data k a) i j
    if i > j then (data, i, j)
    else partitionLoop lt a fuel (swapAt data i j) (i + 1) (j - 1)

/-- `partition_func(data, a, b, pivot)`: the slice, `newpivot` and `alreadyPartitioned`. -/
def partition (lt : α → α → Bool) (data : List α) (a b pivot : Nat) : List α × Nat × Bool :=
  let data := swapAt data a pivot
  let i := a + 1
  let j := b - 1
  let i := scanUp (fun k => lessAt lt data k a) j (j + 1 - i) i
  let j := scanDown (fun k => !lessAt lt data k a) i j
  if i > j then (swapAt data j a, j, true)
  else
    let data := swapAt data i j
    let r := partitionLoop lt a (b - a) data (i + 1) (j - 1)
    (swapAt r.1 r.2.2 a, r.2.2, false)

/-- The loop `for { ... }` of `partitionEqual_func`, with the state `data`, `i`, `j`. -/
def partitionEqualLoop (lt : α → α → Bool) (a : Nat) :
    Nat → List α → Nat → Nat → List α × Nat × Nat
  | 0, data, i, j => (data, i, j)
  | fuel + 1, data, i, j =>
    let i := scanUp (fun k => !lessAt lt data a k) j (j + 1 - i) i
    let j := scanDown (fun k => lessAt lt data a k) i j
    if i > j then (data, i, j)
    else partitionEqualLoop lt a fuel (swapAt data i j) (i + 1) (j - 1)

/-- `partitionEqual_func(data, a, b, pivot)`: the slice and `newpivot`. -/
def partitionEqual (lt : α → α → Bool) (data : List α) (a b pivot : Nat) : List α × Nat :=
  let data := swapAt data a pivot
  let r := partitionEqualLoop lt a (b - a + 1) data (a + 1) (b - 1)
  (r.1, r.2.1)

/-- The loop `for j := i - 1; j >= 1; j--` of `partialInsertionSort_func` that shifts the
smaller element to the left, from `j` on. -/
def shiftLeft (lt : α → α → Bool) : Nat → List α → List α
  | 0, data => data
  | j + 1, data =>
    if !lessAt lt data (j + 1) j then data
    else shiftLeft lt j (swapAt data (j + 1) j)

/-- The loop `for j := i + 1; j < b; j++` of `partialInsertionSort_func` that shifts the
greater element to the right, from `j` on; the first argument bounds the number of rounds. -/
def shiftRight (lt : α → α → Bool) (b : Nat) : Nat → Nat → List α → List α
  | 0, _, data => data
  | fuel + 1, j, data =>
    if j < b then
      if !lessAt lt data j (j - 1) then data
      else shiftRight lt b fuel (j + 1) (swapAt data j (j - 1))
    else data

/-- The loop `for i < b && !data.Less(i, i-1) { i++ }` of `partialInsertionSort_func`; the
first argument bounds the number of rounds. -/
def scanSorted (lt : α → α → Bool) (data : List α) (b : Nat) : Nat → Nat → Nat
  | 0, i => i
  | fuel + 1, i =>
    if i < b && !lessAt lt data i (i - 1) then scanSorted lt data b fuel (i + 1) else i

/-- The loop `for j := 0; j < maxSteps; j++` of `partialInsertionSort_func`, with the state
`i`, `data`; the first argument is the number of steps left. -/
def partialInsertionSortLoop (lt : α → α → Bool) (a b : Nat) :
    Nat → Nat → List α → List α × Bool
  | 0, _, data => (data, false)
  | steps + 1, i, data =>
    let i := scanSorted lt data b (b - i) i
    if i = b then (data, true)
    else if b - a < 50 then (data, false)
    else
      let data := swapAt data i (i - 1)
      -- Shift the smaller one to the left.
      let data := if i - a ≥ 2 then shiftLeft lt (i - 1) data else data
      -- Shift the greater one to the right.
      let data := if b - i ≥ 2 then shiftRight lt b (b - (i + 1)) (i + 1) data else data
      partialInsertionSortLoop lt a b steps i data

/-- `partialInsertionSort_func(data, a, b)`: the slice and whether it is sorted. -/
def partialInsertionSort (lt : α → α → Bool) (data : List α) (a b : Nat) : List α × Bool :=
  partialInsertionSortLoop lt a b 5 (a + 1) data

/-- `bits.Len(uint(n))`: the number of bits of `n`. -/
def bitsLenAux : Nat → Nat → Nat
  | 0, _ => 0
  | fuel + 1, n => if n = 0 then 0 else bitsLenAux fuel (n / 2) + 1

/-- `bits.Len(uint(n))`. -/
def bitsLen (n : Nat) : Nat := bitsLenAux n n

/-- `(*xorshift).Next` on a `uint64`. The values drawn only choose which elements
`breakPatterns_func` swaps inside the range: no statement proved below depends on them. -/
def xorshiftNext (r : Nat) : Nat :=
  let r := r ^^^ ((r <<< 13) % 2 ^ 64)
  let r := r ^^^ (r >>> 7)
  let r := r ^^^ ((r <<< 17) % 2 ^ 64)
  r

/-- The loop `for i := 0; i < 3; i++` of `breakPatterns_func`; the first argument is the
number of rounds left. -/
def breakPatternsLoop (a length modulus idx : Nat) : Nat → Nat → Nat → List α → List α
  | 0, _, _, data => data
  | rounds + 1, i, random, data =>
    let random := xorshiftNext random
    let other := random &&& (modulus - 1)
    let other := if other ≥ length then other - length else other
    breakPatternsLoop a length modulus idx rounds (i + 1) random
      (swapAt data (idx - 1 + i) (a + other))

/-- `breakPatterns_func(data, a, b)`. -/
def breakPatterns (data : List α) (a b : Nat) : List α :=
  let length := b - a
  if length ≥ 8 then
    let random := length
    let modulus := 2 ^ bitsLen length
    let idx := a + (length / 4) * 2 - 1
    breakPatternsLoop a length modulus idx 3 0 random data
  else data

/-- The type `sortedHint`. -/
inductive sortedHint where
  | unknownHint
  | increasingHint
  | decreasingHint
  deriving DecidableEq, Repr

/-- `order2_func(data, a, b, swaps)`: the two indices and the new value of `*swaps`. -/
def order2 (lt : α → α → Bool) (data : List α) (a b swaps : Nat) : Nat × Nat × Nat :=
  if lessAt lt data b a then (b, a, swaps + 1) else (a, b, swaps)

/-- `median_func(data, a, b, c, swaps)`: the index and the new value of `*swaps`. -/
def median (lt : α → α → Bool) (data : List α) (a b c swaps : Nat) : Nat × Nat :=
  let r1 := order2 lt data a b swaps
  let r2 := order2 lt data r1.2.1 c r1.2.2
  let r3 := order2 lt data r1.1 r2.1 r2.2.2
  (r3.2.1, r3.2.2)

/-- `medianAdjacent_func(data, a, swaps)`. -/
def medianAdjacent (lt : α → α → Bool) (data : List α) (a swaps : Nat) : Nat × Nat :=
  median lt data (a - 1) a (a + 1) swaps

/-- `choosePivot_func(data, a, b)`. -/
def choosePivot (lt : α → α → Bool) (data : List α) (a b : Nat) : Nat × sortedHint :=
  let l := b - a
  let swaps := 0
  let i := a + l / 4 * 1
  let j := a + l / 4 * 2
  let k := a + l / 4 * 3
  let r :=
    if l ≥ 8 then
      if l ≥ 50 then
        let ri := medianAdjacent lt data i swaps
        let rj := medianAdjacent lt data j ri.2
        let rk := medianAdjacent lt data k rj.2
        median lt data ri.1 rj.1 rk.1 rk.2
      else median lt data i j k swaps
    else (j, swaps)
  if r.2 = 0 then (r.1, sortedHint.increasingHint)
  else if r.2 = 12 then (r.1, sortedHint.decreasingHint)
  else (r.1, sortedHint.unknownHint)

/-- The loop `for i < j` of `reverseRange_func`; the first argument bounds the rounds. -/
def reverseRangeLoop : Nat → Nat → Nat → List α → List α
  | 0, _, _, data => data
  | fuel + 1, i, j, data =>
    if i < j then reverseRangeLoop fuel (i + 1) (j - 1) (swapAt data i j) else data

/-- `reverseRange_func(data, a, b)`. -/
def reverseRange (data : List α) (a b : Nat) : List α :=
  reverseRangeLoop (b - a) a (b - 1) data

/-- The loop `for { ... }` of `pdqsort_func(data, a, b, limit)` with its state `a`, `b`,
`limit`, `wasBalanced`, `wasPartitioned`; a call of `pdqsort_func` is the loop started with
both flags true. Every round, and every call, works on a shorter range: the first argument,
more than `b - a`, bounds their number. -/
def pdqsortLoop (lt : α → α → Bool) :
    Nat → List α → Nat → Nat → Nat → Bool → Bool → List α
  | 0, data, _, _, _, _, _ => data
  | fuel + 1, data, a, b, limit, wasBalanced, wasPartitioned =>
    let length := b - a
    if length ≤ 12 then insertionSort lt data a b
    -- Fall back to heapsort if too many bad choices were made.
    else if limit = 0 then heapSort lt data a b
    else
      -- If the last partitioning was imbalanced, we need to breakPatterns.
      let data := if !wasBalanced then breakPatterns data a b else data
      let limit := if !wasBalanced then limit - 1 else limit
      let c := choosePivot lt data a b
      let data := if c.2 = sortedHint.decreasingHint then reverseRange data a b else data
      let pivot := if c.2 = sortedHint.decreasingHint then (b - 1) - (c.1 - a) else c.1
      let hint := if c.2 = sortedHint.decreasingHint then sortedHint.increasingHint else c.2
      -- The slice is likely already sorted.
      let r := if wasBalanced && wasPartitioned && hint = sortedHint.increasingHint then
          partialInsertionSort lt data a b else (data, false)
      if r.2 then r.1
      else
        let data := r.1
        -- Probably the slice contains many duplicate elements
        if a > 0 && !lessAt lt data (a - 1) pivot then
          let e := partitionEqual lt data a b pivot
          pdqsortLoop lt fuel e.1 e.2 b limit wasBalanced wasPartitioned
        else
          let p := partition lt data a b pivot
          let mid := p.2.1
          let wasPartitioned := p.2.2
          let leftLen := mid - a
          let rightLen := b - mid
          let balanceThreshold := length / 8
          if leftLen < rightLen then
            let wasBalanced := decide (leftLen ≥ balanceThreshold)
            let data := pdqsortLoop lt fuel p.1 a mid limit true true
            pdqsortLoop lt fuel data (mid + 1) b limit wasBalanced wasPartitioned
          else
            let wasBalanced := decide (rightLen ≥ balanceThreshold)
            let data := pdqsortLoop lt fuel p.1 (mid + 1) b limit true true
            pdqsortLoop lt fuel data a mid limit wasBalanced wasPartitioned

/-- The call `sort.Slice(x, less)`: `pdqsort_func(data, 0, length, bits.Len(length))`. -/
def sortSlice (x : List α) (lt : α → α → Bool) : List α :=
  pdqsortLoop lt (x.length + 1) x 0 x.length (bitsLen x.length) true true

/-! ### The notions the proofs about `sort.Slice` are stated with -/

/-- The element at `i` is `le` the element at `j` (for the indices in range). -/
def leAt (le : α → α → Prop) (d : List α) (i j : Nat) : Prop :=
  ∀ x y, d[i]? = some x → d[j]? = some y → le x y

/-- Everything before the index `c` is `le` everything from `c` on. -/
def Cut (le : α → α → Prop) (d : List α) (c : Nat) : Prop :=
  ∀ p q, p < c → c ≤ q → leAt le d p q

/-- The slice `d'` is `d` rearranged within the range `[a, b)`. -/
def Frame (a b : Nat) (d d' : List α) : Prop :=
  d'.length = d.length ∧ d'.Perm d ∧ (∀ k, k < a ∨ b ≤ k → d'[k]? = d[k]?) ∧
  (∀ k y, a ≤ k → k < b → d'[k]? = some y → ∃ k', a ≤ k' ∧ k' < b ∧ d[k']? = some y)

/-- The slice `d'` is a rearrangement of `d` that keeps every cut of `d` at or before `a`
and at or after `b`. -/
def PresOut (le : α → α → Prop) (a b : Nat) (d d' : List α) : Prop :=
  d'.length = d.length ∧ d'.Perm d ∧ ∀ c, (c ≤ a ∨ b ≤ c) → Cut le d c → Cut le d' c

/-- What the proofs use of the comparison `lt`: on the elements with `P` it refines the
transitive relation `le`. -/
structure Refines (lt : α → α → Bool) (le : α → α → Prop) (P : α → Prop) : Prop where
  h1 : ∀ a b, P a → P b → lt a b = true → le a b
  h2 : ∀ a b, P a → P b → lt a b = false → le b a
  trans : ∀ a b c, le a b → le b c → le a c

/-- The neighbours within the range `[a, b)` are in order. -/
def SortedSeg (le : α → α → Prop) (d : List α) (a b : Nat) : Prop :=
  ∀ k, a < k → k < b → leAt le d (k - 1) k

/-- The loop shared by `partition_func` and `partitionEqual_func`: two scans, then a swap,
with `pu` the test of the scan upwards and `pd` the test of the scan downwards. -/
def twoWayLoop (pu pd : List α → Nat → Bool) : Nat → List α → Nat → Nat → List α × Nat × Nat
  | 0, data, i, j => (data, i, j)
  | fuel + 1, data, i, j =>
    if scanUp (pu data) j (j + 1 - i) i > scanDown (pd data) (scanUp (pu data) j (j + 1 - i) i) j
    then (data, scanUp (pu data) j (j + 1 - i) i,
      scanDown (pd data) (scanUp (pu data) j (j + 1 - i) i) j)
    else twoWayLoop pu pd fuel
      (swapAt data (scanUp (pu data) j (j + 1 - i) i)
        (scanDown (pd data) (scanUp (pu data) j (j + 1 - i) i) j))
      (scanUp (pu data) j (j + 1 - i) i + 1)
      (scanDown (pd data) (scanUp (pu data) j (j + 1 - i) i) j - 1)

/-- The heap property of `heapSort_func` on the nodes from `lo` on, within the first `hi`
elements after `first`: a child is `le` its parent. -/
def HeapFrom (le : α → α → Prop) (d : List α) (first lo hi : Nat) : Prop :=
  ∀ r c, lo ≤ r → c < hi → (c = 2 * r + 1 ∨ c = 2 * r + 2) →
    leAt le d (first + c) (first + r)

/-- What a call of `pdqsort_func` on the range `[a, b)` is to achieve: a rearrangement that
keeps the cuts outside the range and has every cut inside it. -/
def SortsRange (le : α → α → Prop) (a b : Nat) (d d' : List α) : Prop :=
  PresOut le a b d d' ∧ ∀ c, a < c → c < b → Cut le d' c

/-- No element of the slice is `less` than an earlier one. -/
def Ordered (lt : α → α → Bool) (d : List α) : Prop :=
  ∀ i j, i < j → lessAt lt d j i = false

end gosort

namespace filesystem

/-! ## `time.Time` (Go standard library) -/

/-- Go's `time.Time`: the `wall` word (uint64), the `ext` word (int64) and the location
pointer `loc` (modelled by a number identifying the `*Location`, `0` for the nil pointer). -/
structure Time where
  wall : Nat
  ext : Int
  loc : Nat
  deriving DecidableEq, Repr

/-- The flag bit of `wall` telling that a monotonic clock reading is present (`1 << 63`). -/
def hasMonotonic : Nat := 2 ^ 63

/-- The constant `wallToInternal` of package `time`: seconds from year 1 to year 1885. -/
def wallToInternal : Int := (1884 * 365 + 1884 / 4 - 1884 / 100 + 1884 / 400) * 86400

/-- `(*Time).sec`: seconds since year 1. -/
def Time.sec (t : Time) : Int :=
  if t.wall &&& hasMonotonic ≠ 0 then
    wallToInternal + (((t.wall * 2) % 2 ^ 64 / 2 ^ 31 : Nat) : Int)
  else t.ext

/-- `(*Time).nsec`: the nanoseconds within the second (`wall & nsecMask`). -/
def Time.nsec (t : Time) : Nat := t.wall % 2 ^ 30

/-- `Time.After`: whether the instant `t` is after the instant `u`. -/
def Time.After (t u : Time) : Bool :=
  if t.wall &&& u.wall &&& hasMonotonic ≠ 0 then decide (t.ext > u.ext)
  else decide (t.sec > u.sec) || (decide (t.sec = u.sec) && decide (t.nsec > u.nsec))

/-- `Time.Equal`: whether `t` and `u` denote the same instant. -/
def Time.Equal (t u : Time) : Bool :=
  if t.wall &&& u.wall &&& hasMonotonic ≠ 0 then decide (t.ext = u.ext)
  else decide (t.sec = u.sec) && decide (t.nsec = u.nsec)

/-- `Time.Before`: whether the instant `t` is before the instant `u`. -/
def Time.Before (t u : Time) : Bool :=
  if t.wall &&& u.wall &&& hasMonotonic ≠ 0 then decide (t.ext < u.ext)
  else decide (t.sec < u.sec) || (decide (t.sec = u.sec) && decide (t.nsec < u.nsec))

/-! ## Go strings -/

/-- Go's `<` on strings, on the characters of the two strings: lexicographic order. -/
def ltChars : List Char → List Char → Bool
  | _, [] => false
  | [], _ :: _ => true
  | a :: as, b :: bs => if a < b then true else if a = b then ltChars as bs else false

/-- Go's `s < t` on strings. -/
def strLess (s t : String) : Bool := ltChars s.data t.data

/-! ## `directory.go` -/

/-- The struct `FileEntry`. -/
structure FileEntry where
  Name : String
  Path : String
  IsDir : Bool
  Size : Int
  ModTime : Time
  Mode : Nat
  deriving DecidableEq, Repr

/-- The type `SortBy` is an `int`. -/
abbrev SortBy := Int

def SortByName : SortBy := 0
def SortBySize : SortBy := 1
def SortByModTime : SortBy := 2

/-- The comparison closure handed to `sort.Slice` by `SortEntries`, on the two entries
`entries[i]` and `entries[j]`. -/
def less (sortBy : SortBy) (ei ej : FileEntry) : Bool :=
  -- Directories always come first
  if ei.IsDir ≠ ej.IsDir then ei.IsDir
  else if sortBy = SortBySize then
    if ei.Size = ej.Size then strLess ei.Name ej.Name
    else decide (ei.Size > ej.Size)
  else if sortBy = SortByModTime then
    if ei.ModTime = ej.ModTime then strLess ei.Name ej.Name
    else ei.ModTime.After ej.ModTime
  else strLess ei.Name ej.Name

/-- The function `SortEntries`; the slice sorted in place is the result. -/
def SortEntries (entries : List FileEntry) (sortBy : SortBy) : List FileEntry :=
  gosort.sortSlice entries (fun ei ej => less sortBy ei ej)

/-- The order that the comparison by size puts on two entries `p`, `n` with `p` before `n`:
no file before a directory and, within a kind, descending size, then ascending name. -/
def sizeOrdered (p n : FileEntry) : Prop :=
  (p.IsDir = false → n.IsDir = false) ∧
  (p.IsDir = n.IsDir → n.Size ≤ p.Size ∧ (p.Size = n.Size → p.Name ≤ n.Name))

/-- The order that the comparison by name puts on two entries `p`, `n` with `p` before `n`:
no file before a directory and, within a kind, ascending name. -/
def nameOrdered (p n : FileEntry) : Prop :=
  (p.IsDir = false → n.IsDir = false) ∧ (p.IsDir = n.IsDir → p.Name ≤ n.Name)

/-- The order that the comparison by modification time puts on two entries `p`, `n` with
`p` before `n` when their times carry no monotonic reading: no file before a directory
and, within a kind, the later time first (seconds `ext`, then the nanoseconds in `wall`),
then ascending name. -/
def timeOrdered (p n : FileEntry) : Prop :=
  (p.IsDir = false → n.IsDir = false) ∧
  (p.IsDir = n.IsDir →
    n.ModTime.ext < p.ModTime.ext ∨
    (n.ModTime.ext = p.ModTime.ext ∧ n.ModTime.wall < p.ModTime.wall) ∨
    (n.ModTime.ext = p.ModTime.ext ∧ n.ModTime.wall = p.ModTime.wall ∧ p.Name ≤ n.Name))

/-! ## The environment: operating system and standard library -/

/-- What `(os.FileInfo)` gives for a child: `Size()`, `ModTime()`, `Mode()`. -/
structure FileInfo where
  size : Int
  modTime : Time
  mode : Nat
  deriving DecidableEq, Repr

/-- One `os.DirEntry` of `os.ReadDir`: `Name()`, `IsDir()`, and the result of `Info()`,
which is `none` when `Info()` returns an error. -/
structure DirEntry where
  name : String
  isDir : Bool
  info : Option FileInfo
  deriving DecidableEq, Repr

/-- The calls into the operating system and the Go standard library. An error is
`Except.error` with the text of the Go `error`. -/
structure Sys where
  /-- `os.ReadDir(path)` -/
  readDir : String → Except String (List DirEntry)
  /-- `filepath.Abs(path)` -/
  abs : String → Except String String
  /-- `filepath.Dir(path)` -/
  dir : String → String
  /-- `filepath.Join(dir, name)` -/
  join : String → String → String
  /-- `os.UserHomeDir()` -/
  userHomeDir : Except String String
  /-- `strings.ToLower(s)` -/
  toLower : String → String
  /-- `filepath.Ext(name)` -/
  ext : String → String
  /-- `os.ReadFile(path)`, the content as a string -/
  readFile : String → Except String String
  /-- `s[:n]`, the first `n` bytes of a string -/
  sliceTo : String → Nat → String
  /-- `fmt.Sprintf("%.1f", float64(bytes)/float64(div))` -/
  sprintfFloat1 : Int → Int → String

/-- The loop of `ListDirectory` over the children: a child whose `Info()` fails is skipped. -/
def listLoop (sys : Sys) (path : String) : List DirEntry → List FileEntry
  | [] => []
  | e :: rest =>
    match e.info with
    | none => listLoop sys path rest
    | some info =>
      { Name := e.name, Path := sys.join path e.name, IsDir := e.isDir, Size := info.size,
        ModTime := info.modTime, Mode := info.mode } :: listLoop sys path rest

/-- The function `ListDirectory`. -/
def ListDirectory (sys : Sys) (path : String) : Except String (List FileEntry) :=
  match sys.readDir path with
  | .error err => .error ("failed to read directory " ++ path ++ ": " ++ err)
  | .ok entries =>
    let files := listLoop sys path entries
    -- Sort: Directories first, then alphabetically
    .ok (SortEntries files SortByName)

end filesystem

/-! ## `ui.go` -/

namespace ui

open filesystem

/-! ### The widgets of `tview`, as far as the code reads them back -/

/-- An item of a `tview.List`: main and secondary text. -/
structure ListItem where
  mainText : String
  secondaryText : String
  deriving DecidableEq, Repr

/-- A `tview.List`: its items and the index of the current item. -/
structure ListView where
  items : List ListItem
  currentItem : Int
  deriving DecidableEq, Repr

/-- `(*tview.List).Clear`: no items, current item 0. -/
def ListView.Clear (_l : ListView) : ListView := { items := [], currentItem := 0 }

/-- `(*tview.List).AddItem`: the item is appended; the current item stays. -/
def ListView.AddItem (l : ListView) (mainText secondaryText : String) : ListView :=
  { l with items := l.items ++ [{ mainText := mainText, secondaryText := secondaryText }] }

/-- `(*tview.List).GetCurrentItem`. -/
def ListView.GetCurrentItem (l : ListView) : Int := l.currentItem

/-- `(*tview.List).GetItemCount`. -/
def ListView.GetItemCount (l : ListView) : Int := l.items.length

/-- What `app.SetRoot` was last given. -/
inductive Root where
  | none
  | layout
  | searchModal
  | helpModal
  deriving DecidableEq, Repr

/-- The key handed to the done function of a `tview.InputField`. -/
inductive Key where
  | Enter
  | Escape
  | Tab
  | Backtab
  deriving DecidableEq, Repr

/-- The struct `Explorer`. The text views hold their text; `app` is what it shows (`root`)
and the files given to an external editor so far (`opened`, see `openFile`). -/
structure Explorer where
  root : Root
  opened : List String
  list : ListView
  parentList : ListView
  previewPane : String
  statusBar : String
  pathBar : String
  currentPath : String
  entries : List FileEntry
  parentEntries : List FileEntry
  showHidden : Bool
  searchMode : Bool
  searchQuery : String
  selectedIndex : Int
  previewPath : String
  deriving DecidableEq, Repr

/-! ### Helpers of the standard library on strings -/

/-- `strings.HasPrefix(s, p)`. -/
def startsWith (s p : String) : Bool := p.data.isPrefixOf s.data

/-- `strings.TrimPrefix(s, p)`. -/
def trimStart (s p : String) : String :=
  if startsWith s p then String.mk (s.data.drop p.data.length) else s

/-- `strings.Contains`, on the characters of the two strings. -/
def containsChars : List Char → List Char → Bool
  | [], sub => sub.isPrefixOf []
  | c :: s, sub => sub.isPrefixOf (c :: s) || containsChars s sub

/-- `strings.Contains(s, substr)`. -/
def stringsContains (s substr : String) : Bool := containsChars s.data substr.data

/-- The verb `%-30s` of `fmt.Sprintf`: padded with blanks on the right to 30 characters. -/
def padRight30 (s : String) : String := s ++ String.mk (List.replicate (30 - s.data.length) ' ')

/-! ### The functions of `ui.go` -/

/-- The test `!e.showHidden && len(entry.Name) > 0 && entry.Name[0] == '.'`, which `refresh`
(twice), `openSelected`, `updateListPreview` and `filterSearch` each write out: the entry is
skipped when it holds. -/
def skipHidden (showHidden : Bool) (entry : FileEntry) : Bool :=
  !showHidden && decide (entry.Name.data.length > 0) && (entry.Name.data.head? == some '.')

/-- The loop of `formatSize`, `for n := bytes / unit; n >= unit; n /= unit`; six rounds are
the most an int64 allows, the first argument bounds their number. -/
def formatSizeLoop : Nat → Int → Int → Nat → Int × Nat
  | 0, _, div, exp => (div, exp)
  | fuel + 1, n, div, exp =>
    if n ≥ 1024 then formatSizeLoop fuel (n / 1024) (div * 1024) (exp + 1) else (div, exp)

/-- The function `formatSize`. -/
def formatSize (sys : Sys) (bytes : Int) : String :=
  if bytes < 1024 then toString bytes ++ " B"
  else
    let r := formatSizeLoop 64 (bytes / 1024) 1024 0
    sys.sprintfFloat1 bytes r.1 ++ " " ++ String.mk ["KMGTPE".data.getD r.2 ' '] ++ "B"

/-- The function `countDirItems`. -/
def countDirItems (sys : Sys) (path : String) : Int :=
  match ListDirectory sys path with
  | .error _ => 0
  | .ok entries => entries.length

/-- The keys of the map `textExtensions` of `isTextFile`. -/
def textExtensions : List String :=
  [".txt", ".md", ".json", ".yaml", ".yml", ".go", ".py", ".js", ".ts", ".css",
   ".html", ".xml", ".csv", ".sh", ".bash", ".conf", ".config", ".toml", ".ini"]

/-- The function `isTextFile`. -/
def isTextFile (sys : Sys) (filename : String) : Bool :=
  let ext := sys.toLower (sys.ext filename)
  textExtensions.contains ext

/-- The function `previewFile`. -/
def previewFile (sys : Sys) (path : String) : String :=
  match sys.readFile path with
  | .error _ => "[red]Error reading file[white]"
  | .ok content =>
    let text := content
    let text := if text.utf8ByteSize > 500 then
        sys.sliceTo text 500 ++ "[dim]\n... (truncated)[white]" else text
    "[white]" ++ text

/-- The method `updateStatusBar`. -/
def updateStatusBar (e : Explorer) : Explorer :=
  if e.searchMode then
    { e with statusBar := " [yellow]🔍 Search: [white]" ++ padRight30 e.searchQuery ++
        " [yellow]│[white] Press [yellow]Enter[white] to search, [yellow]Esc[white] to cancel" }
  else
    let hiddenStr := if e.showHidden then " [green]·[white] Hidden files [green]ON" else ""
    { e with statusBar := " [cyan]↑[white]/[cyan]↓[white]: navigate  │  [cyan]Enter[white]/[cyan]l[white]: open  │  [cyan]h[white]: back  │  [cyan]~[white]: home  │  [cyan].[white]: toggle hidden  │  [cyan]?[white]: help  │  [cyan]q[white]: quit" ++ hiddenStr }

/-- The method `updatePreview`. -/
def updatePreview (sys : Sys) (e : Explorer) (entry : FileEntry) : Explorer :=
  let e := { e with previewPath := entry.Path }
  if entry.IsDir then
    -- Show directory info
    let fileCount := countDirItems sys entry.Path
    let info := "[cyan]📁 Directory[white]\n\n[dim]Name:[white] " ++ entry.Name ++
      "\n[dim]Path:[white] " ++ entry.Path ++ "\n[dim]Items:[white] " ++ toString fileCount ++
      "\n\n[yellow]Press Enter to open"
    { e with previewPane := info }
  else
    -- Show file info with preview
    let info := "[cyan]📄 File[white]\n\n[dim]Name:[white] " ++ entry.Name ++
      "\n[dim]Size:[white] " ++ formatSize sys entry.Size ++ "\n[dim]Path:[white] " ++
      entry.Path ++ "\n\n"
    let info := if isTextFile sys entry.Name then
        info ++ "[cyan]━━━ Preview ━━━[white]\n" ++ previewFile sys entry.Path
      else info ++ "[dim](Binary file - no preview)[white]"
    { e with previewPane := info }

/-- The body of the first loop of `refresh`, over `e.parentEntries`. -/
def refreshParentItem (showHidden : Bool) (l : ListView) (entry : FileEntry) : ListView :=
  if skipHidden showHidden entry then l
  else
    let icon := if entry.IsDir then "📁" else "📄"
    l.AddItem (icon ++ "  " ++ entry.Name) ""

/-- The body of the second loop of `refresh`, over `e.entries`. -/
def refreshItem (sys : Sys) (showHidden : Bool) (l : ListView) (entry : FileEntry) : ListView :=
  -- Skip hidden files if not showing
  if skipHidden showHidden entry then l
  else if entry.IsDir then
    l.AddItem ("[cyan]" ++ "📁" ++ "  " ++ entry.Name ++ "[white]")
      ("[dim]" ++ toString (countDirItems sys entry.Path) ++ " items")
  else
    l.AddItem ("[white]" ++ "📄" ++ "  " ++ entry.Name ++ "[white]")
      ("[dim]" ++ formatSize sys entry.Size)

/-- The path that `refresh` shows in the path bar: the home directory is abbreviated. -/
def displayPath (sys : Sys) (currentPath : String) : String :=
  let homeDir := match sys.userHomeDir with
    | .ok h => h
    | .error _ => ""
  if startsWith currentPath homeDir then "~" ++ trimStart currentPath homeDir else currentPath

/-- The last statement of `refresh`, under its comment `Update preview for selected item`. -/
def previewSelected (sys : Sys) (e : Explorer) : Explorer :=
  if e.selectedIndex ≥ 0 ∧ e.selectedIndex < e.entries.length then
    match e.entries[e.selectedIndex.toNat]? with
    | some entry => updatePreview sys e entry
    | none => e
  else e

/-- The method `refresh`. -/
def refresh (sys : Sys) (e : Explorer) : Explorer :=
  -- Update path bar
  let e := { e with pathBar := " [yellow]📂  [white]" ++ displayPath sys e.currentPath }
  -- Refresh parent list
  let e := { e with parentList :=
    e.parentEntries.foldl (refreshParentItem e.showHidden) e.parentList.Clear }
  -- Refresh main list
  let e := { e with list := e.entries.foldl (refreshItem sys e.showHidden) e.list.Clear }
  -- Update status bar
  let e := updateStatusBar e
  -- Update preview for selected item
  previewSelected sys e

/-- The method `navigate`. -/
def navigate (sys : Sys) (e : Explorer) (path : String) : Explorer :=
  match sys.abs path with
  | .error _ => e
  | .ok absPath =>
    match ListDirectory sys absPath with
    | .error err => { e with statusBar := " [red]✗ Error: " ++ err }
    | .ok entries =>
      let e := { e with currentPath := absPath }
      -- Load parent directory
      let parentPath := sys.dir absPath
      let e := if parentPath ≠ absPath then
          match ListDirectory sys parentPath with
          | .ok parentEntries => { e with parentEntries := parentEntries }
          | .error _ => { e with parentEntries := [] }
        else e
      let e := { e with entries := entries, selectedIndex := 0 }
      refresh sys e

/-- The method `openFile`: the application is suspended and an editor is run on `path`;
the path is recorded in `opened`. -/
def openFile (e : Explorer) (path : String) : Explorer :=
  { e with opened := e.opened ++ [path] }

/-- The loop `for _, entry := range e.entries` of `openSelected` and `updateListPreview`
that collects `visibleEntries`. -/
def visibleEntries (e : Explorer) : List FileEntry :=
  e.entries.foldl (fun visible entry =>
    if skipHidden e.showHidden entry then visible else visible ++ [entry]) []

/-- The method `openSelected`. -/
def openSelected (sys : Sys) (e : Explorer) : Explorer :=
  let idx := e.list.GetCurrentItem
  -- Filter entries same way as refresh
  let visible := visibleEntries e
  if idx < 0 ∨ idx ≥ visible.length then e
  else
    match visible[idx.toNat]? with
    | none => e
    | some entry =>
      if entry.IsDir then navigate sys e entry.Path
      else openFile e entry.Path

/-- The method `updateListPreview`. -/
def updateListPreview (sys : Sys) (e : Explorer) : Explorer :=
  let idx := e.list.GetCurrentItem
  let visible := visibleEntries e
  if idx ≥ 0 ∧ idx < visible.length then
    match visible[idx.toNat]? with
    | some entry => updatePreview sys e entry
    | none => e
  else e

/-- The method `goBack`. -/
def goBack (sys : Sys) (e : Explorer) : Explorer :=
  let parent := sys.dir e.currentPath
  if parent ≠ e.currentPath then navigate sys e parent else e

/-- The item that the loop of `filterSearch` adds to the list for a matching entry:
`mainText` and `secondaryText` as built by its two `fmt.Sprintf`. -/
def searchItem (sys : Sys) (entry : FileEntry) : ListItem :=
  if entry.IsDir then
    { mainText := "[" ++ "blue" ++ "]" ++ "📁" ++ " " ++ entry.Name ++ "[white]",
      secondaryText := "    " ++ "<DIR>" }
  else
    { mainText := "[" ++ "white" ++ "]" ++ "📄" ++ " " ++ entry.Name ++ "[white]",
      secondaryText := "    " ++ formatSize sys entry.Size }

/-- The body of the loop of `filterSearch`: the list and `count` after one more entry;
`query` is the lower-cased query. -/
def filterSearchItem (sys : Sys) (showHidden : Bool) (query : String)
    (acc : ListView × Int) (entry : FileEntry) : ListView × Int :=
  if skipHidden showHidden entry then acc
  else if stringsContains (sys.toLower entry.Name) query then
    let item := searchItem sys entry
    (acc.1.AddItem item.mainText item.secondaryText, acc.2 + 1)
  else acc

/-- The loop of `filterSearch`: the list and `count` once all entries are through. -/
def filterSearchLoop (sys : Sys) (e : Explorer) (query : String) : ListView × Int :=
  e.entries.foldl (filterSearchItem sys e.showHidden query) (e.list.Clear, 0)

/-- The method `filterSearch`. -/
def filterSearch (sys : Sys) (e : Explorer) (query : String) : Explorer :=
  let query := sys.toLower query
  let r := filterSearchLoop sys e query
  let e := { e with list := r.1 }
  let count := r.2
  if count = 0 then { e with statusBar := " [red]No matches found" }
  else { e with statusBar := " [green]Found " ++ toString count ++ " matches" }

/-- The method `createLayout` followed by `app.SetRoot`: the three panes are shown again. -/
def showLayout (e : Explorer) : Explorer := { e with root := Root.layout }

/-- The method `startSearch`: the input field is shown. -/
def startSearch (e : Explorer) : Explorer := { e with root := Root.searchModal }

/-- The done function that `startSearch` gives the input field, called with the key that
ended the input and the text of the field (`inputField.GetText()`). -/
def searchDone (sys : Sys) (e : Explorer) (key : Key) (text : String) : Explorer :=
  if key = Key.Enter then
    let query := text
    let e := if query ≠ "" then filterSearch sys e query else e
    showLayout e
  else if key = Key.Escape then showLayout e
  else e

/-- The function `NewExplorer`: hidden files off, every other field at its zero value (the
widgets are created by `Run`). -/
def NewExplorer : Explorer :=
  { root := Root.none, opened := [], list := { items := [], currentItem := 0 },
    parentList := { items := [], currentItem := 0 }, previewPane := "", statusBar := "",
    pathBar := "", currentPath := "", entries := [], parentEntries := [],
    showHidden := false, searchMode := false, searchQuery := "", selectedIndex := 0,
    previewPath := "" }

/-- The method `Run` up to the start of the event loop: the widgets are created, the
explorer navigates to the home directory (`/` when there is none) and shows the layout. -/
def Run (sys : Sys) (e : Explorer) : Explorer :=
  let e := { e with
    parentList := { items := [], currentItem := 0 }, list := { items := [], currentItem := 0 },
    previewPane := " [dim]Select a file to preview[white]", pathBar := "" }
  let e := updateStatusBar e
  let homeDir := match sys.userHomeDir with
    | .ok h => h
    | .error _ => "/"
  let e := navigate sys e homeDir
  showLayout e

/-- The entries a search for `query` is to show, in the words of the specification: those
not excluded as hidden (`showHidden` is true or the name does not begin with `.`) whose
lower-cased name contains the lower-cased query as a substring. -/
def specMatches (sys : Sys) (showHidden : Bool) (query : String) (entries : List FileEntry) :
    List FileEntry :=
  entries.filter (fun x =>
    decide ((showHidden = true ∨ ¬ ['.'] <+: x.Name.data) ∧
      (sys.toLower query).data <:+: (sys.toLower x.Name).data))

/-- The entries that survive the hidden-exclusion rule, in the words of the specification. -/
def specVisible (showHidden : Bool) (entries : List FileEntry) : List FileEntry :=
  entries.filter (fun x => decide (showHidden = true ∨ ¬ ['.'] <+: x.Name.data))

end ui


/-! ## Concrete environments and states for the examples -/

namespace examples

open filesystem ui

/-- Lower-casing of the ASCII letters, as `strings.ToLower` does on ASCII strings. -/
def asciiLower (s : String) : String := String.mk (s.data.map Char.toLower)

/-- Drops the characters up to and with the first `/`. -/
def dropComponent : List Char → List Char
  | [] => []
  | c :: cs => if c = '/' then cs else dropComponent cs

/-- The result of `filepath.Dir` on a clean absolute path. -/
def dirOf (p : String) : String :=
  let d := (dropComponent p.data.reverse).reverse
  if d = [] then "/" else String.mk d

/-- The result of `filepath.Join` on a clean absolute path and a name. -/
def joinPath (d n : String) : String := if d = "/" then d ++ n else d ++ "/" ++ n

/-- A file system given by the table of its directories. -/
def lookupDir : List (String × List DirEntry) → String → Except String (List DirEntry)
  | [], _ => .error "no such file or directory"
  | (p, es) :: rest, q => if p = q then .ok es else lookupDir rest q

/-- The environment over the file system `dirs`, with home directory `home`. -/
def tableSys (home : String) (dirs : List (String × List DirEntry)) : Sys :=
  { readDir := lookupDir dirs, abs := fun p => .ok p, dir := dirOf, join := joinPath,
    userHomeDir := .ok home, toLower := asciiLower, ext := fun _ => "",
    readFile := fun _ => .error "unreadable", sliceTo := fun s _ => s,
    sprintfFloat1 := fun _ _ => "" }

/-- The value of `time.Unix(1700000000, 0)`: no monotonic reading, location `Local`
(pointer 1). -/
def today : Time := { wall := 0, ext := 63835596800, loc := 1 }

/-- The value of `time.Unix(1700000000, 0).UTC()`: the same instant as `today`, with the nil
location pointer. -/
def todayUTC : Time := { wall := 0, ext := 63835596800, loc := 0 }

/-- One day before `today`. -/
def yesterday : Time := { wall := 0, ext := 63835510400, loc := 1 }

/-- A regular file as `os.ReadDir` reports it. -/
def fileChild (name : String) (size : Int) (t : Time) : DirEntry :=
  { name := name, isDir := false, info := some { size := size, modTime := t, mode := 420 } }

/-- A directory as `os.ReadDir` reports it. -/
def dirChild (name : String) (t : Time) : DirEntry :=
  { name := name, isDir := true, info := some { size := 4096, modTime := t, mode := 2147484141 } }

/-- The directory `/tmp/x` of the scenario: `sub`, `b.txt` of 500 bytes, `a.txt` of 10. -/
def sysX : Sys :=
  tableSys "/tmp/x" [("/tmp/x", [fileChild "b.txt" 500 today, dirChild "sub" yesterday,
    fileChild "a.txt" 10 today]), ("/tmp/x/sub", []), ("/tmp", [dirChild "x" today])]

/-- The listing of `/tmp/x`. -/
def entriesX : List FileEntry :=
  match ListDirectory sysX "/tmp/x" with
  | .ok entries => entries
  | .error _ => []

/-- Two files modified at the same instant, `b` with a local time and `a` with a UTC time. -/
def sameInstant : List FileEntry :=
  [{ Name := "b", Path := "/d/b", IsDir := false, Size := 1, ModTime := today, Mode := 420 },
   { Name := "a", Path := "/d/a", IsDir := false, Size := 1, ModTime := todayUTC, Mode := 420 }]

/-- Three files modified at the same instant: `z` and `a` with a local time, `m` between
them with a UTC time. -/
def sameInstantThree : List FileEntry :=
  [{ Name := "z", Path := "/d/z", IsDir := false, Size := 1, ModTime := today, Mode := 420 },
   { Name := "m", Path := "/d/m", IsDir := false, Size := 1, ModTime := todayUTC, Mode := 420 },
   { Name := "a", Path := "/d/a", IsDir := false, Size := 1, ModTime := today, Mode := 420 }]

/-- The home directory `/d` with the files `alpha`, `beta`, `gamma`, under the root `/`. -/
def sysA : Sys :=
  tableSys "/d" [("/d", [fileChild "gamma" 3 today, fileChild "alpha" 1 today,
    fileChild "beta" 2 today]), ("/", [dirChild "d" today])]

/-- The explorer once started, standing in `/d`. -/
def explorerA : Explorer := Run sysA NewExplorer

/-- The explorer after the search prompt was opened and `b` submitted with Enter. -/
def explorerB : Explorer := searchDone sysA (startSearch explorerA) Key.Enter "b"

/-- The home directory `/r` with the directory `.git` and the file `a.txt`. -/
def sysH : Sys :=
  tableSys "/r" [("/r", [fileChild "a.txt" 7 today, dirChild ".git" today]), ("/r/.git", []),
    ("/", [dirChild "r" today])]

/-- The explorer once started, standing in `/r`: hidden files off, selection at 0. -/
def explorerH : Explorer := Run sysH NewExplorer

/-- Twenty files of one directory: the names `d`, `c`, `b`, `a` in turn, with the sizes 0
to 19 in the order of the slice. -/
def twenty : List FileEntry :=
  (List.range 20).map (fun i =>
    { Name := ["d", "c", "b", "a"].getD (i % 4) "", Path := "/d/f", IsDir := false,
      Size := i, ModTime := today, Mode := 420 })

end examples


/-! ## Theorems: `sort.Slice` -/

namespace gosort

variable {α : Type}

section
variable {α : Type}

theorem swapAt_length (d : List α) (i j : Nat) : (swapAt d i j).length = d.length := by
  unfold swapAt
  split <;> simp

theorem getElem?_swapAt (d : List α) (i j k : Nat) (hi : i < d.length) (hj : j < d.length) :
    (swapAt d i j)[k]? = if k = j then d[i]? else if k = i then d[j]? else d[k]? := by
  unfold swapAt
  have h1 : d[i]? = some d[i] := List.getElem?_eq_getElem hi
  have h2 : d[j]? = some d[j] := List.getElem?_eq_getElem hj
  rw [h1, h2]
  simp only [List.getElem?_set, List.length_set]
  by_cases hkj : k = j
  · subst hkj
    simp [hj]
  · by_cases hki : k = i
    · subst hki
      simp [hkj, hi, Ne.symm hkj]
    · simp [hkj, hki, Ne.symm hkj, Ne.symm hki]

theorem set_perm_aux (t : List α) (j : Nat) (y h : α) (hy : t[j]? = some y) :
    (y :: t.set j h).Perm (h :: t) := by
  induction t generalizing j with
  | nil => simp at hy
  | cons u t ih =>
    cases j with
    | zero =>
      simp at hy
      subst hy
      exact List.Perm.swap _ _ _
    | succ j =>
      simp at hy
      have := ih j hy
      simp only [List.set_cons_succ]
      exact (List.Perm.swap u y _).trans ((List.Perm.cons u this).trans (List.Perm.swap h u t))

theorem set_set_perm (d : List α) (i j : Nat) (x y : α) (hx : d[i]? = some x)
    (hy : d[j]? = some y) : ((d.set i y).set j x).Perm d := by
  induction d generalizing i j with
  | nil => simp at hx
  | cons h t ih =>
    cases i with
    | zero =>
      simp at hx
      subst hx
      cases j with
      | zero =>
        simp at hy
        subst hy
        simp
      | succ j =>
        simp at hy
        simpa using set_perm_aux t j y h hy
    | succ i =>
      simp at hx
      cases j with
      | zero =>
        simp at hy
        subst hy
        simpa using set_perm_aux t i x h hx
      | succ j =>
        simp at hy
        simpa using ih i j hx hy

theorem swapAt_perm (d : List α) (i j : Nat) : (swapAt d i j).Perm d := by
  unfold swapAt
  split
  · rename_i x y hx hy
    exact set_set_perm d i j x y hx hy
  · exact List.Perm.refl _

theorem Frame.same (a b : Nat) (d : List α) : Frame a b d d :=
  ⟨rfl, List.Perm.refl _, fun _ _ => rfl, fun k _ h1 h2 h3 => ⟨k, h1, h2, h3⟩⟩

theorem Frame.andThen {a b : Nat} {d1 d2 d3 : List α} (h12 : Frame a b d1 d2)
    (h23 : Frame a b d2 d3) : Frame a b d1 d3 := by
  obtain ⟨l1, p1, o1, s1⟩ := h12
  obtain ⟨l2, p2, o2, s2⟩ := h23
  refine ⟨l2.trans l1, p2.trans p1, fun k hk => (o2 k hk).trans (o1 k hk), ?_⟩
  intro k y hk1 hk2 hy
  obtain ⟨k', h1, h2, h3⟩ := s2 k y hk1 hk2 hy
  exact s1 k' y h1 h2 h3

theorem Frame.widen {a b a0 b0 : Nat} {d d' : List α} (h : Frame a b d d') (ha : a0 ≤ a)
    (hb : b ≤ b0) : Frame a0 b0 d d' := by
  obtain ⟨l1, p1, o1, s1⟩ := h
  refine ⟨l1, p1, fun k hk => o1 k (by omega), ?_⟩
  intro k y hk1 hk2 hy
  by_cases hin : a ≤ k ∧ k < b
  · obtain ⟨k', h1, h2, h3⟩ := s1 k y hin.1 hin.2 hy
    exact ⟨k', by omega, by omega, h3⟩
  · refine ⟨k, hk1, hk2, ?_⟩
    rw [← o1 k (by omega)]
    exact hy

theorem swapAt_frame (d : List α) (a b i j : Nat) (hai : a ≤ i) (hib : i < b) (haj : a ≤ j)
    (hjb : j < b) (hb : b ≤ d.length) : Frame a b d (swapAt d i j) := by
  have hi : i < d.length := by omega
  have hj : j < d.length := by omega
  refine ⟨swapAt_length d i j, swapAt_perm d i j, ?_, ?_⟩
  · intro k hk
    rw [getElem?_swapAt d i j k hi hj]
    have h1 : k ≠ j := by omega
    have h2 : k ≠ i := by omega
    simp [h1, h2]
  · intro k y hk1 hk2 hy
    rw [getElem?_swapAt d i j k hi hj] at hy
    by_cases h1 : k = j
    · rw [if_pos h1] at hy
      exact ⟨i, hai, hib, hy⟩
    · rw [if_neg h1] at hy
      by_cases h2 : k = i
      · rw [if_pos h2] at hy
        exact ⟨j, haj, hjb, hy⟩
      · rw [if_neg h2] at hy
        exact ⟨k, hk1, hk2, hy⟩

theorem Frame.presOut {le : α → α → Prop} {a b : Nat} {d d' : List α} (h : Frame a b d d') :
    PresOut le a b d d' := by
  obtain ⟨l1, p1, o1, s1⟩ := h
  refine ⟨l1, p1, ?_⟩
  intro c hc hcut p q hp hq x y hx hy
  have hxd : ∃ p', p' < c ∧ d[p']? = some x := by
    by_cases hin : a ≤ p ∧ p < b
    · obtain ⟨k', h1, h2, h3⟩ := s1 p x hin.1 hin.2 hx
      exact ⟨k', by omega, h3⟩
    · exact ⟨p, hp, by rw [← o1 p (by omega)]; exact hx⟩
  have hyd : ∃ q', c ≤ q' ∧ d[q']? = some y := by
    by_cases hin : a ≤ q ∧ q < b
    · obtain ⟨k', h1, h2, h3⟩ := s1 q y hin.1 hin.2 hy
      exact ⟨k', by omega, h3⟩
    · exact ⟨q, hq, by rw [← o1 q (by omega)]; exact hy⟩
  obtain ⟨p', hp', hx'⟩ := hxd
  obtain ⟨q', hq', hy'⟩ := hyd
  exact hcut p' q' hp' hq' x y hx' hy'

theorem PresOut.refl (le : α → α → Prop) (a b : Nat) (d : List α) : PresOut le a b d d :=
  ⟨rfl, List.Perm.refl _, fun _ _ h => h⟩

theorem PresOut.trans {le : α → α → Prop} {a b : Nat} {d1 d2 d3 : List α}
    (h12 : PresOut le a b d1 d2) (h23 : PresOut le a b d2 d3) : PresOut le a b d1 d3 :=
  ⟨h23.1.trans h12.1, h23.2.1.trans h12.2.1, fun c hc h => h23.2.2 c hc (h12.2.2 c hc h)⟩

theorem PresOut.mono {le : α → α → Prop} {a b a0 b0 : Nat} {d d' : List α}
    (h : PresOut le a b d d') (ha : a0 ≤ a) (hb : b ≤ b0) : PresOut le a0 b0 d d' :=
  ⟨h.1, h.2.1, fun c hc hcut => h.2.2 c (by omega) hcut⟩

/-- A swap of two neighbours, the right one `le` the left one, keeps every cut. -/
theorem swapAt_adj_cut {le : α → α → Prop} (htrans : ∀ a b c, le a b → le b c → le a c)
    (d : List α) (j : Nat) (hj : j + 1 < d.length) (hle : leAt le d (j + 1) j) (c : Nat)
    (hcut : Cut le d c) : Cut le (swapAt d (j + 1) j) c := by
  intro p q hp hq x y hx hy
  have hj0 : j < d.length := by omega
  rw [getElem?_swapAt d (j + 1) j p hj hj0] at hx
  rw [getElem?_swapAt d (j + 1) j q hj hj0] at hy
  by_cases hc : c = j + 1
  · -- the cut between the two swapped positions
    subst hc
    have hq1 : q ≠ j := by omega
    have hp1 : p ≠ j + 1 := by omega
    rw [if_neg hq1] at hy
    rw [if_neg hp1] at hx
    by_cases hpj : p = j
    · rw [if_pos hpj] at hx
      -- x = d[j+1]
      by_cases hqj : q = j + 1
      · rw [if_pos hqj] at hy
        exact hle x y hx hy
      · rw [if_neg hqj] at hy
        obtain ⟨z, hz⟩ : ∃ z, d[j]? = some z := ⟨d[j], List.getElem?_eq_getElem hj0⟩
        exact htrans _ _ _ (hle x z hx hz) (hcut j q (by omega) hq z y hz hy)
    · rw [if_neg hpj] at hx
      by_cases hqj : q = j + 1
      · rw [if_pos hqj] at hy
        obtain ⟨z, hz⟩ : ∃ z, d[j + 1]? = some z := ⟨d[j + 1], List.getElem?_eq_getElem hj⟩
        exact htrans _ _ _ (hcut p (j + 1) hp (le_refl _) x z hx hz) (hle z y hz hy)
      · rw [if_neg hqj] at hy
        exact hcut p q hp hq x y hx hy
  · -- both swapped positions are on the same side
    have hx' : ∃ p', p' < c ∧ d[p']? = some x := by
      by_cases h1 : p = j
      · rw [if_pos h1] at hx; exact ⟨j + 1, by omega, hx⟩
      · rw [if_neg h1] at hx
        by_cases h2 : p = j + 1
        · rw [if_pos h2] at hx; exact ⟨j, by omega, hx⟩
        · rw [if_neg h2] at hx; exact ⟨p, hp, hx⟩
    have hy' : ∃ q', c ≤ q' ∧ d[q']? = some y := by
      by_cases h1 : q = j
      · rw [if_pos h1] at hy; exact ⟨j + 1, by omega, hy⟩
      · rw [if_neg h1] at hy
        by_cases h2 : q = j + 1
        · rw [if_pos h2] at hy; exact ⟨j, by omega, hy⟩
        · rw [if_neg h2] at hy; exact ⟨q, hq, hy⟩
    obtain ⟨p', hp', hx''⟩ := hx'
    obtain ⟨q', hq', hy''⟩ := hy'
    exact hcut p' q' hp' hq' x y hx'' hy''

section Less

variable {lt : α → α → Bool} {le : α → α → Prop} {P : α → Prop}

theorem mem_of_getElem? {d : List α} {i : Nat} {x : α} (h : d[i]? = some x) : x ∈ d := by
  rw [List.getElem?_eq_some] at h
  obtain ⟨hi, rfl⟩ := h
  exact List.getElem_mem _

theorem lessAt_true (hr : Refines lt le P) {d : List α} (hP : ∀ x ∈ d, P x) {i j : Nat}
    (h : lessAt lt d i j = true) : leAt le d i j := by
  intro x y hx hy
  unfold lessAt at h
  rw [hx, hy] at h
  exact hr.h1 x y (hP x (mem_of_getElem? hx)) (hP y (mem_of_getElem? hy)) h

theorem lessAt_false (hr : Refines lt le P) {d : List α} (hP : ∀ x ∈ d, P x) {i j : Nat}
    (h : lessAt lt d i j = false) : leAt le d j i := by
  intro y x hy hx
  unfold lessAt at h
  rw [hx, hy] at h
  exact hr.h2 x y (hP x (mem_of_getElem? hx)) (hP y (mem_of_getElem? hy)) h

theorem allP_perm {d d' : List α} (h : d'.Perm d) (hP : ∀ x ∈ d, P x) : ∀ x ∈ d', P x :=
  fun x hx => hP x (h.subset hx)

end Less

end

section
variable {α : Type}

theorem swapAt_get_left (d : List α) (i j : Nat) (hi : i < d.length) (hj : j < d.length) :
    (swapAt d i j)[i]? = d[j]? := by
  rw [getElem?_swapAt d i j i hi hj]
  by_cases h : i = j
  · rw [if_pos h, h]
  · rw [if_neg h, if_pos rfl]

theorem swapAt_get_right (d : List α) (i j : Nat) (hi : i < d.length) (hj : j < d.length) :
    (swapAt d i j)[j]? = d[i]? := by
  rw [getElem?_swapAt d i j j hi hj, if_pos rfl]

theorem swapAt_get_other (d : List α) (i j k : Nat) (hi : i < d.length) (hj : j < d.length)
    (h1 : k ≠ i) (h2 : k ≠ j) : (swapAt d i j)[k]? = d[k]? := by
  rw [getElem?_swapAt d i j k hi hj, if_neg h2, if_neg h1]

theorem leAt_congr {le : α → α → Prop} (d : List α) {d' : List α} {p q : Nat} (p' q' : Nat)
    (hp : d'[p]? = d[p']?) (hq : d'[q]? = d[q']?) (h : leAt le d p' q') : leAt le d' p q := by
  intro x y hx hy
  rw [hp] at hx
  rw [hq] at hy
  exact h x y hx hy

theorem PresOut.allCuts {le : α → α → Prop} {d d' : List α} (hl : d'.length = d.length)
    (hp : d'.Perm d) (h : ∀ c, Cut le d c → Cut le d' c) (a b : Nat) : PresOut le a b d d' :=
  ⟨hl, hp, fun c _ hc => h c hc⟩

section

variable {lt : α → α → Bool} {le : α → α → Prop} {P : α → Prop}

/-- The loop that moves the element at `j` to the left while it is less than its left
neighbour and `j > lo`: the pairs of neighbours above `a` end up in order. -/
theorem insertionInner_spec (hr : Refines lt le P) (lo a i : Nat) (hlo : lo ≤ a) :
    ∀ (j : Nat) (d : List α), j ≤ i → i < d.length → (∀ x ∈ d, P x) →
      (lo < a → Cut le d a) →
      (∀ k, a < k → k ≤ i → k ≠ j → k ≠ j + 1 → leAt le d (k - 1) k) →
      (a < j + 1 → j + 1 ≤ i → leAt le d j (j + 1)) →
      (a < j + 1 → j + 1 ≤ i → lo < j → leAt le d (j - 1) (j + 1)) →
      (∀ c, Cut le d c → Cut le (insertionInner lt lo j d) c) ∧
      (insertionInner lt lo j d).length = d.length ∧
      (insertionInner lt lo j d).Perm d ∧
      (∀ k, a < k → k ≤ i → leAt le (insertionInner lt lo j d) (k - 1) k) ∧
      (∀ k, (k < lo ∨ j < k) → (insertionInner lt lo j d)[k]? = d[k]?) ∧
      Frame lo (j + 1) d (insertionInner lt lo j d) := by
  intro j
  induction j with
  | zero =>
    intro d _ _ _ _ h1 h2 _
    have e : insertionInner lt lo 0 d = d := rfl
    rw [e]
    refine ⟨fun _ h => h, rfl, List.Perm.refl _, ?_, fun _ _ => rfl, Frame.same _ _ _⟩
    intro k hk1 hk2
    by_cases hk : k = 1
    · subst hk
      exact h2 (by omega) hk2
    · exact h1 k hk1 hk2 (by omega) (by omega)
  | succ j ih =>
    intro d hji hid hP hcut h1 h2 h3
    simp only [insertionInner]
    have hj1 : j + 1 < d.length := by omega
    have hj0 : j < d.length := by omega
    by_cases hc : (decide (j + 1 > lo) && lessAt lt d (j + 1) j) = true
    · rw [if_pos hc]
      simp only [Bool.and_eq_true, decide_eq_true_eq] at hc
      obtain ⟨hlo1, hless⟩ := hc
      have hguard : leAt le d (j + 1) j := lessAt_true hr hP hless
      have hP1 : ∀ x ∈ swapAt d (j + 1) j, P x := allP_perm (swapAt_perm d (j + 1) j) hP
      have hlen1 : (swapAt d (j + 1) j).length = d.length := swapAt_length d (j + 1) j
      have hcuts1 : ∀ c, Cut le d c → Cut le (swapAt d (j + 1) j) c :=
        fun c h => swapAt_adj_cut hr.trans d j hj1 hguard c h
      have r := ih (swapAt d (j + 1) j) (by omega) (by omega) hP1
        (fun h => hcuts1 a (hcut h))
        (by
          intro k hk1 hk2 hk3 hk4
          by_cases hk5 : k = j + 2
          · subst hk5
            refine leAt_congr d (j) (j + 2) ?_ ?_ ?_
            · show (swapAt d (j + 1) j)[j + 2 - 1]? = d[j]?
              have : j + 2 - 1 = j + 1 := by omega
              rw [this]
              exact swapAt_get_left d (j + 1) j hj1 hj0
            · exact swapAt_get_other d (j + 1) j (j + 2) hj1 hj0 (by omega) (by omega)
            · have := h3 (by omega) (by omega) hlo1
              simpa using this
          · refine leAt_congr d (k - 1) (k) ?_ ?_ ?_
            · exact swapAt_get_other d (j + 1) j (k - 1) hj1 hj0 (by omega) (by omega)
            · exact swapAt_get_other d (j + 1) j k hj1 hj0 (by omega) (by omega)
            · exact h1 k hk1 hk2 (by omega) (by omega))
        (by
          intro _ _
          refine leAt_congr d (j + 1) (j) ?_ ?_ hguard
          · exact swapAt_get_right d (j + 1) j hj1 hj0
          · exact swapAt_get_left d (j + 1) j hj1 hj0)
        (by
          intro ha1 hi1 hloj
          refine leAt_congr d (j - 1) (j) ?_ ?_ ?_
          · exact swapAt_get_other d (j + 1) j (j - 1) hj1 hj0 (by omega) (by omega)
          · exact swapAt_get_left d (j + 1) j hj1 hj0
          · by_cases haj : a < j
            · exact h1 j haj (by omega) (by omega) (by omega)
            · have hja : j = a := by omega
              subst hja
              exact hcut hloj (j - 1) j (by omega) (le_refl _))
      obtain ⟨r1, r2, r3, r4, r5, r6⟩ := r
      refine ⟨fun c h => r1 c (hcuts1 c h), r2.trans hlen1,
        r3.trans (swapAt_perm d (j + 1) j), r4, ?_, ?_⟩
      · intro k hk
        rw [r5 k (by omega)]
        exact swapAt_get_other d (j + 1) j k hj1 hj0 (by omega) (by omega)
      · exact (swapAt_frame d lo (j + 1 + 1) (j + 1) j (by omega) (by omega) (by omega)
          (by omega) (by omega)).andThen (r6.widen (le_refl _) (by omega))
    · rw [if_neg hc]
      refine ⟨fun _ h => h, rfl, List.Perm.refl _, ?_, fun _ _ => rfl, Frame.same _ _ _⟩
      intro k hk1 hk2
      by_cases hk : k = j + 1
      · subst hk
        have hless : lessAt lt d (j + 1) j = false := by
          simp only [Bool.and_eq_true, decide_eq_true_eq, not_and, Bool.not_eq_true] at hc
          exact hc (by omega)
        simpa using lessAt_false hr hP hless
      · by_cases hk' : k = j + 2
        · subst hk'
          have := h2 (by omega) (by omega)
          simpa using this
        · exact h1 k hk1 hk2 hk hk'

end

end

section
variable {α : Type}

section

variable {lt : α → α → Bool} {le : α → α → Prop} {P : α → Prop}

theorem insertionOuter_spec (hr : Refines lt le P) (a b : Nat) :
    ∀ (fuel i : Nat) (d : List α), b ≤ d.length → a < i → b ≤ i + fuel → (∀ x ∈ d, P x) →
      SortedSeg le d a i →
      Frame a b d (insertionOuter lt a b fuel i d) ∧
      SortedSeg le (insertionOuter lt a b fuel i d) a b := by
  intro fuel
  induction fuel with
  | zero =>
    intro i d _ _ hfuel _ hs
    have e : insertionOuter lt a b 0 i d = d := rfl
    rw [e]
    exact ⟨Frame.same _ _ _, fun k hk1 hk2 => hs k hk1 (by omega)⟩
  | succ fuel ih =>
    intro i d hb hai hfuel hP hs
    simp only [insertionOuter]
    by_cases hib : i < b
    · rw [if_pos hib]
      have r := insertionInner_spec hr a a i (le_refl a) i d (le_refl i) (by omega) hP
        (fun h => absurd h (lt_irrefl a))
        (fun k hk1 hk2 hk3 _ => hs k hk1 (by omega))
        (fun _ h => absurd h (by omega))
        (fun _ h _ => absurd h (by omega))
      obtain ⟨_, r2, r3, r4, _, r6⟩ := r
      have r' := ih (i + 1) (insertionInner lt a i d) (by omega) (by omega) (by omega)
        (allP_perm r3 hP) (fun k hk1 hk2 => r4 k hk1 (by omega))
      exact ⟨(r6.widen (le_refl a) (by omega)).andThen r'.1, r'.2⟩
    · rw [if_neg hib]
      exact ⟨Frame.same _ _ _, fun k hk1 hk2 => hs k hk1 (by omega)⟩

/-- `insertionSort_func(data, a, b)` rearranges the range `[a, b)` and leaves its
neighbours in order. -/
theorem insertionSort_spec (hr : Refines lt le P) (a b : Nat) (d : List α)
    (hb : b ≤ d.length) (hP : ∀ x ∈ d, P x) :
    Frame a b d (insertionSort lt d a b) ∧ SortedSeg le (insertionSort lt d a b) a b := by
  unfold insertionSort
  exact insertionOuter_spec hr a b (b - a) (a + 1) d hb (by omega) (by omega) hP
    (fun k hk1 hk2 => absurd hk2 (by omega))

/-- In a range whose neighbours are in order, an earlier element is `le` a later one. -/
theorem SortedSeg.le_of_lt (htrans : ∀ a b c, le a b → le b c → le a c) {d : List α}
    {a b : Nat} (hs : SortedSeg le d a b) (hb : b ≤ d.length) :
    ∀ (q p : Nat), a ≤ p → p < q → q < b → leAt le d p q := by
  intro q
  induction q with
  | zero => intro p _ h _; exact absurd h (by omega)
  | succ q ih =>
    intro p hap hpq hqb
    by_cases hp : p = q
    · subst hp
      have := hs (p + 1) (by omega) hqb
      simpa using this
    · intro x y hx hy
      have hqd : q < d.length := by omega
      obtain ⟨z, hz⟩ : ∃ z, d[q]? = some z := ⟨d[q], List.getElem?_eq_getElem hqd⟩
      have h1 := ih p hap (by omega) (by omega) x z hx hz
      have h2 := hs (q + 1) (by omega) hqb
      simp only [Nat.add_sub_cancel] at h2
      exact htrans _ _ _ h1 (h2 z y hz hy)

/-- With the cuts at `a` and `b`, a range whose neighbours are in order has all its cuts. -/
theorem cuts_of_sortedSeg (htrans : ∀ a b c, le a b → le b c → le a c) {d : List α}
    {a b : Nat} (hs : SortedSeg le d a b) (hb : b ≤ d.length) (ha : Cut le d a)
    (hcb : Cut le d b) : ∀ c, a < c → c < b → Cut le d c := by
  intro c hac hcb' p q hp hq
  by_cases hpa : p < a
  · exact ha p q hpa (by omega)
  · by_cases hqb : b ≤ q
    · exact hcb p q (by omega) hqb
    · exact hs.le_of_lt htrans hb q p (by omega) (by omega) (by omega)

end

end

section
variable {α : Type}

theorem partitionLoop_eq (lt : α → α → Bool) (a : Nat) (fuel : Nat) (d : List α) (i j : Nat) :
    partitionLoop lt a fuel d i j =
      twoWayLoop (fun d k => lessAt lt d k a) (fun d k => !lessAt lt d k a) fuel d i j := by
  induction fuel generalizing d i j with
  | zero => rfl
  | succ fuel ih =>
    simp only [partitionLoop, twoWayLoop]
    split
    · rfl
    · exact ih _ _ _

theorem partitionEqualLoop_eq (lt : α → α → Bool) (a : Nat) (fuel : Nat) (d : List α)
    (i j : Nat) :
    partitionEqualLoop lt a fuel d i j =
      twoWayLoop (fun d k => !lessAt lt d a k) (fun d k => lessAt lt d a k) fuel d i j := by
  induction fuel generalizing d i j with
  | zero => rfl
  | succ fuel ih =>
    simp only [partitionEqualLoop, twoWayLoop]
    split
    · rfl
    · exact ih _ _ _

theorem scanUp_spec (p : Nat → Bool) (j : Nat) :
    ∀ (fuel i : Nat), j + 1 ≤ i + fuel → i ≤ j + 1 →
      i ≤ scanUp p j fuel i ∧ scanUp p j fuel i ≤ j + 1 ∧
      (∀ k, i ≤ k → k < scanUp p j fuel i → p k = true) ∧
      (scanUp p j fuel i ≤ j → p (scanUp p j fuel i) = false) := by
  intro fuel
  induction fuel with
  | zero =>
    intro i h1 h2
    have e : scanUp p j 0 i = i := rfl
    rw [e]
    exact ⟨le_refl _, h2, fun k hk1 hk2 => absurd hk2 (by omega), fun h => absurd h (by omega)⟩
  | succ fuel ih =>
    intro i h1 h2
    simp only [scanUp]
    by_cases hc : (decide (i ≤ j) && p i) = true
    · rw [if_pos hc]
      simp only [Bool.and_eq_true, decide_eq_true_eq] at hc
      obtain ⟨r1, r2, r3, r4⟩ := ih (i + 1) (by omega) (by omega)
      refine ⟨by omega, r2, ?_, r4⟩
      intro k hk1 hk2
      by_cases hk : k = i
      · subst hk; exact hc.2
      · exact r3 k (by omega) hk2
    · rw [if_neg hc]
      refine ⟨le_refl _, h2, fun k hk1 hk2 => absurd hk2 (by omega), ?_⟩
      intro h
      simp only [Bool.and_eq_true, decide_eq_true_eq, not_and, Bool.not_eq_true] at hc
      exact hc h

theorem scanDown_spec (p : Nat → Bool) (i : Nat) (hi : 1 ≤ i) :
    ∀ (j : Nat), i ≤ j + 1 →
      scanDown p i j ≤ j ∧ i ≤ scanDown p i j + 1 ∧
      (∀ k, scanDown p i j < k → k ≤ j → p k = true) ∧
      (i ≤ scanDown p i j → p (scanDown p i j) = false) := by
  intro j
  induction j with
  | zero =>
    intro h
    have e : scanDown p i 0 = 0 := rfl
    rw [e]
    exact ⟨le_refl _, h, fun k hk1 hk2 => absurd hk2 (by omega), fun h' => absurd h' (by omega)⟩
  | succ j ih =>
    intro h
    simp only [scanDown]
    by_cases hc : (decide (i ≤ j + 1) && p (j + 1)) = true
    · rw [if_pos hc]
      simp only [Bool.and_eq_true, decide_eq_true_eq] at hc
      obtain ⟨r1, r2, r3, r4⟩ := ih hc.1
      refine ⟨by omega, r2, ?_, r4⟩
      intro k hk1 hk2
      by_cases hk : k = j + 1
      · subst hk; exact hc.2
      · exact r3 k hk1 (by omega)
    · rw [if_neg hc]
      refine ⟨le_refl _, by omega, fun k hk1 hk2 => absurd hk2 (by omega), ?_⟩
      intro h'
      simp only [Bool.and_eq_true, decide_eq_true_eq, not_and, Bool.not_eq_true] at hc
      exact hc h'

/-- The loop of the two partitions: in the end the scan upwards has passed the scan
downwards, everything below `i` passes `pu`, everything above `j` passes `pd`. -/
theorem twoWayLoop_spec (pu pd : List α → Nat → Bool) (a b : Nat)
    (hneg : ∀ d k, pd d k = !pu d k)
    (hsw : ∀ (d : List α) (i j k : Nat), a < i → i < b → a < j → j < b → b ≤ d.length →
      pu (swapAt d i j) k = pu d (if k = j then i else if k = i then j else k)) :
    ∀ (fuel : Nat) (d : List α) (i j : Nat), b ≤ d.length → a < i → j < b → i ≤ j + 1 →
      j + 2 ≤ i + fuel →
      (∀ k, a < k → k < i → pu d k = true) → (∀ k, j < k → k < b → pd d k = true) →
      Frame (a + 1) b d (twoWayLoop pu pd fuel d i j).1 ∧
      (twoWayLoop pu pd fuel d i j).2.1 = (twoWayLoop pu pd fuel d i j).2.2 + 1 ∧
      a ≤ (twoWayLoop pu pd fuel d i j).2.2 ∧ (twoWayLoop pu pd fuel d i j).2.2 < b ∧
      (∀ k, a < k → k < (twoWayLoop pu pd fuel d i j).2.1 →
        pu (twoWayLoop pu pd fuel d i j).1 k = true) ∧
      (∀ k, (twoWayLoop pu pd fuel d i j).2.2 < k → k < b →
        pd (twoWayLoop pu pd fuel d i j).1 k = true) := by
  intro fuel
  induction fuel with
  | zero => intro d i j _ _ _ _ h; exact absurd h (by omega)
  | succ fuel ih =>
    intro d i j hb hai hjb hij hfuel hup hdown
    obtain ⟨u1, u2, u3, u4⟩ := scanUp_spec (pu d) j (j + 1 - i) i (by omega) hij
    obtain ⟨v1, v2, v3, v4⟩ := scanDown_spec (pd d) (scanUp (pu d) j (j + 1 - i) i) (by omega)
      j u2
    simp only [twoWayLoop]
    generalize scanUp (pu d) j (j + 1 - i) i = i1 at *
    generalize scanDown (pd d) i1 j = j1 at *
    by_cases hc : i1 > j1
    · rw [if_pos hc]
      refine ⟨Frame.same _ _ _, by simp only; omega, by simp only; omega, by simp only; omega,
        ?_, ?_⟩
      · intro k hk1 hk2
        simp only at hk2 ⊢
        by_cases hk : k < i
        · exact hup k hk1 hk
        · exact u3 k (by omega) hk2
      · intro k hk1 hk2
        simp only at hk1 ⊢
        by_cases hk : j < k
        · exact hdown k hk hk2
        · exact v3 k hk1 (by omega)
    · rw [if_neg hc]
      have hi1 : pu d i1 = false := u4 (by omega)
      have hj1 : pd d j1 = false := v4 (by omega)
      have hne : i1 ≠ j1 := by
        intro e
        rw [e] at hi1
        rw [hneg, hi1] at hj1
        exact absurd hj1 (by decide)
      have r := ih (swapAt d i1 j1) (i1 + 1) (j1 - 1) (by rw [swapAt_length]; exact hb)
        (by omega) (by omega) (by omega) (by omega)
        (by
          intro k hk1 hk2
          rw [hsw d i1 j1 k (by omega) (by omega) (by omega) (by omega) hb]
          by_cases hk : k = j1
          · omega
          · rw [if_neg hk]
            by_cases hk' : k = i1
            · rw [if_pos hk']
              have := hneg d j1
              rw [hj1] at this
              simpa using this.symm
            · rw [if_neg hk']
              by_cases hk'' : k < i
              · exact hup k hk1 hk''
              · exact u3 k (by omega) (by omega))
        (by
          intro k hk1 hk2
          rw [hneg, hsw d i1 j1 k (by omega) (by omega) (by omega) (by omega) hb]
          by_cases hk : k = j1
          · rw [if_pos hk, hi1]; rfl
          · rw [if_neg hk]
            have hk' : k ≠ i1 := by omega
            rw [if_neg hk', ← hneg]
            by_cases hk'' : j < k
            · exact hdown k hk'' hk2
            · exact v3 k (by omega) (by omega))
      obtain ⟨r1, r2, r3, r4, r5, r6⟩ := r
      exact ⟨(swapAt_frame d (a + 1) b i1 j1 (by omega) (by omega) (by omega) (by omega)
        hb).andThen r1, r2, r3, r4, r5, r6⟩

end

section
variable {α : Type}

theorem leAt_trans {le : α → α → Prop} (htrans : ∀ a b c, le a b → le b c → le a c)
    {d : List α} {i j k : Nat} (hj : j < d.length) (h1 : leAt le d i j) (h2 : leAt le d j k) :
    leAt le d i k := by
  intro x y hx hy
  have hz : d[j]? = some d[j] := List.getElem?_eq_getElem hj
  exact htrans _ _ _ (h1 x _ hx hz) (h2 _ y hz hy)

theorem lessAt_swapAt (lt : α → α → Bool) (d : List α) (a i j k : Nat) (hai : a < i)
    (haj : a < j) (hi : i < d.length) (hj : j < d.length) :
    lessAt lt (swapAt d i j) k a =
      lessAt lt d (if k = j then i else if k = i then j else k) a := by
  unfold lessAt
  rw [getElem?_swapAt d i j k hi hj, swapAt_get_other d i j a hi hj (by omega) (by omega)]
  by_cases h1 : k = j
  · simp only [if_pos h1]
  · simp only [if_neg h1]
    by_cases h2 : k = i
    · simp only [if_pos h2]
    · simp only [if_neg h2]

theorem lessAt_swapAt' (lt : α → α → Bool) (d : List α) (a i j k : Nat) (hai : a < i)
    (haj : a < j) (hi : i < d.length) (hj : j < d.length) :
    lessAt lt (swapAt d i j) a k =
      lessAt lt d a (if k = j then i else if k = i then j else k) := by
  unfold lessAt
  rw [getElem?_swapAt d i j k hi hj, swapAt_get_other d i j a hi hj (by omega) (by omega)]
  by_cases h1 : k = j
  · simp only [if_pos h1]
  · simp only [if_neg h1]
    by_cases h2 : k = i
    · simp only [if_pos h2]
    · simp only [if_neg h2]

theorem partition_eq (lt : α → α → Bool) (d : List α) (a b pivot : Nat) :
    (partition lt d a b pivot).1 =
      swapAt (twoWayLoop (fun d k => lessAt lt d k a) (fun d k => !lessAt lt d k a)
        (b - a + 1) (swapAt d a pivot) (a + 1) (b - 1)).1
        (twoWayLoop (fun d k => lessAt lt d k a) (fun d k => !lessAt lt d k a)
          (b - a + 1) (swapAt d a pivot) (a + 1) (b - 1)).2.2 a ∧
    (partition lt d a b pivot).2.1 =
      (twoWayLoop (fun d k => lessAt lt d k a) (fun d k => !lessAt lt d k a)
        (b - a + 1) (swapAt d a pivot) (a + 1) (b - 1)).2.2 := by
  simp only [partition, twoWayLoop, partitionLoop_eq]
  split <;> exact ⟨rfl, rfl⟩

section

variable {lt : α → α → Bool} {le : α → α → Prop} {P : α → Prop}

/-- `partition_func`: the range is rearranged around `newpivot`, what stands before it is
`le` the pivot and the pivot is `le` what stands after it. -/
theorem partition_spec (hr : Refines lt le P) (d : List α) (a b pivot : Nat)
    (hap : a ≤ pivot) (hpb : pivot < b) (hb : b ≤ d.length) (hP : ∀ x ∈ d, P x) :
    Frame a b d (partition lt d a b pivot).1 ∧
    a ≤ (partition lt d a b pivot).2.1 ∧ (partition lt d a b pivot).2.1 < b ∧
    (∀ k, a ≤ k → k < (partition lt d a b pivot).2.1 →
      leAt le (partition lt d a b pivot).1 k (partition lt d a b pivot).2.1) ∧
    (∀ k, (partition lt d a b pivot).2.1 < k → k < b →
      leAt le (partition lt d a b pivot).1 (partition lt d a b pivot).2.1 k) := by
  obtain ⟨e1, e2⟩ := partition_eq lt d a b pivot
  rw [e1, e2]
  have hlen1 : (swapAt d a pivot).length = d.length := swapAt_length _ _ _
  have f1 : Frame a b d (swapAt d a pivot) :=
    swapAt_frame d a b a pivot (le_refl _) (by omega) hap hpb hb
  have r := twoWayLoop_spec (fun d k => lessAt lt d k a) (fun d k => !lessAt lt d k a) a b
    (fun _ _ => rfl)
    (fun d i j k h1 h2 h3 h4 h5 => lessAt_swapAt lt d a i j k h1 h3 (by omega) (by omega))
    (b - a + 1) (swapAt d a pivot) (a + 1) (b - 1) (by omega) (by omega) (by omega)
    (by omega) (by omega) (fun k h1 h2 => absurd h2 (by omega))
    (fun k h1 h2 => absurd h2 (by omega))
  generalize twoWayLoop (fun d k => lessAt lt d k a) (fun d k => !lessAt lt d k a)
    (b - a + 1) (swapAt d a pivot) (a + 1) (b - 1) = L at r
  obtain ⟨dL, iL, jL⟩ := L
  simp only at r ⊢
  obtain ⟨r1, r2, r3, r4, r5, r6⟩ := r
  have hlenL : dL.length = d.length := r1.1.trans hlen1
  have hPL : ∀ x ∈ dL, P x := allP_perm (r1.2.1.trans f1.2.1) hP
  have hjL : jL < dL.length := by omega
  have haL : a < dL.length := by omega
  refine ⟨f1.andThen ((r1.widen (by omega) (le_refl _)).andThen
    (swapAt_frame dL a b jL a r3 r4 (le_refl _) (by omega) (by omega))), r3, r4, ?_, ?_⟩
  · intro k hk1 hk2
    by_cases hka : k = a
    · subst hka
      refine leAt_congr dL jL k ?_ ?_ ?_
      · exact swapAt_get_right dL jL k hjL haL
      · exact swapAt_get_left dL jL k hjL haL
      · exact lessAt_true hr hPL (r5 jL (by omega) (by omega))
    · refine leAt_congr dL k a ?_ ?_ ?_
      · exact swapAt_get_other dL jL a k hjL haL (by omega) hka
      · exact swapAt_get_left dL jL a hjL haL
      · exact lessAt_true hr hPL (r5 k (by omega) (by omega))
  · intro k hk1 hk2
    refine leAt_congr dL a k ?_ ?_ ?_
    · exact swapAt_get_left dL jL a hjL haL
    · exact swapAt_get_other dL jL a k hjL haL (by omega) (by omega)
    · have := r6 k hk1 hk2
      simp only [Bool.not_eq_true'] at this
      exact lessAt_false hr hPL this

/-- `partitionEqual_func`, called with a pivot that is `le` every other element of the
range: what stands before `newpivot` is `le` the pivot, and the pivot, now at `a`, is `le`
everything else in the range. -/
theorem partitionEqual_spec (hr : Refines lt le P) (d : List α) (a b pivot : Nat)
    (hap : a ≤ pivot) (hpb : pivot < b) (hb : b ≤ d.length) (hP : ∀ x ∈ d, P x)
    (hmin : ∀ k, a ≤ k → k < b → k ≠ pivot → leAt le d pivot k) :
    Frame a b d (partitionEqual lt d a b pivot).1 ∧
    a < (partitionEqual lt d a b pivot).2 ∧ (partitionEqual lt d a b pivot).2 ≤ b ∧
    (∀ k, a < k → k < (partitionEqual lt d a b pivot).2 →
      leAt le (partitionEqual lt d a b pivot).1 k a) ∧
    (∀ k, a < k → k < b → leAt le (partitionEqual lt d a b pivot).1 a k) := by
  simp only [partitionEqual, partitionEqualLoop_eq]
  have hlen1 : (swapAt d a pivot).length = d.length := swapAt_length _ _ _
  have ha : a < d.length := by omega
  have hp : pivot < d.length := by omega
  have f1 : Frame a b d (swapAt d a pivot) :=
    swapAt_frame d a b a pivot (le_refl _) (by omega) hap hpb hb
  have r := twoWayLoop_spec (fun d k => !lessAt lt d a k) (fun d k => lessAt lt d a k) a b
    (fun _ _ => by simp)
    (fun d i j k h1 h2 h3 h4 h5 => by
      simp only
      rw [lessAt_swapAt' lt d a i j k h1 h3 (by omega) (by omega)])
    (b - a + 1) (swapAt d a pivot) (a + 1) (b - 1) (by omega) (by omega) (by omega)
    (by omega) (by omega) (fun k h1 h2 => absurd h2 (by omega))
    (fun k h1 h2 => absurd h2 (by omega))
  generalize twoWayLoop (fun d k => !lessAt lt d a k) (fun d k => lessAt lt d a k)
    (b - a + 1) (swapAt d a pivot) (a + 1) (b - 1) = L at r
  obtain ⟨dL, iL, jL⟩ := L
  simp only at r ⊢
  obtain ⟨r1, r2, r3, r4, r5, r6⟩ := r
  have hPL : ∀ x ∈ dL, P x := allP_perm (r1.2.1.trans f1.2.1) hP
  refine ⟨f1.andThen (r1.widen (by omega) (le_refl _)), by omega, by omega, ?_, ?_⟩
  · intro k hk1 hk2
    have := r5 k hk1 hk2
    simp only [Bool.not_eq_true'] at this
    exact lessAt_false hr hPL this
  · intro k hk1 hk2 x y hx hy
    -- the element at `a` is the pivot, the element at `k` is another element of the range
    have hxa : dL[a]? = (swapAt d a pivot)[a]? := r1.2.2.1 a (by omega)
    rw [hxa, swapAt_get_left d a pivot ha hp] at hx
    obtain ⟨k', hk1', hk2', hy'⟩ := r1.2.2.2 k y (by omega) hk2 hy
    rw [getElem?_swapAt d a pivot k' ha hp] at hy'
    by_cases h1 : k' = pivot
    · rw [if_pos h1] at hy'
      by_cases hpa : pivot = a
      · omega
      · exact hmin a (le_refl _) (by omega) (fun e => hpa e.symm) x y hx hy'
    · rw [if_neg h1] at hy'
      have h2 : k' ≠ a := by omega
      rw [if_neg h2] at hy'
      exact hmin k' (by omega) hk2' h1 x y hx hy'

end

end

section
variable {α : Type}

section

variable {lt : α → α → Bool} {le : α → α → Prop} {P : α → Prop}

theorem siftDown_spec (hr : Refines lt le P) (hi first lo : Nat) :
    ∀ (fuel r : Nat) (d : List α), lo ≤ r → first + hi ≤ d.length → hi ≤ r + fuel →
      (∀ x ∈ d, P x) →
      (∀ q c, lo ≤ q → q ≠ r → c < hi → (c = 2 * q + 1 ∨ c = 2 * q + 2) →
        leAt le d (first + c) (first + q)) →
      (∀ q c, lo ≤ q → (r = 2 * q + 1 ∨ r = 2 * q + 2) → c < hi →
        (c = 2 * r + 1 ∨ c = 2 * r + 2) → leAt le d (first + c) (first + q)) →
      HeapFrom le (siftDown lt hi first fuel r d) first lo hi ∧
      Frame (first + lo) (first + hi) d (siftDown lt hi first fuel r d) := by
  intro fuel
  induction fuel with
  | zero =>
    intro r d _ _ hf _ i1 _
    have e : siftDown lt hi first 0 r d = d := rfl
    rw [e]
    refine ⟨?_, Frame.same _ _ _⟩
    intro q c hq hc hch
    exact i1 q c hq (by omega) hc hch
  | succ fuel ih =>
    intro r d hlo hlen hf hP i1 i2
    simp only [siftDown]
    by_cases hch : 2 * r + 1 ≥ hi
    · rw [if_pos hch]
      refine ⟨?_, Frame.same _ _ _⟩
      intro q c hq hc hcq
      exact i1 q c hq (by omega) hc hcq
    · rw [if_neg hch]
      -- the child chosen, `c'`, and what is known of the other child
      have hsel : ∃ c', (if (decide (2 * r + 1 + 1 < hi) &&
            lessAt lt d (first + (2 * r + 1)) (first + (2 * r + 1) + 1)) = true
          then 2 * r + 1 + 1 else 2 * r + 1) = c' ∧ c' < hi ∧
          (c' = 2 * r + 1 ∨ c' = 2 * r + 2) ∧
          (∀ c, c < hi → (c = 2 * r + 1 ∨ c = 2 * r + 2) → c ≠ c' →
            leAt le d (first + c) (first + c')) := by
        by_cases hs : (decide (2 * r + 1 + 1 < hi) &&
            lessAt lt d (first + (2 * r + 1)) (first + (2 * r + 1) + 1)) = true
        · refine ⟨2 * r + 1 + 1, if_pos hs, ?_, Or.inr rfl, ?_⟩
          · simp only [Bool.and_eq_true, decide_eq_true_eq] at hs
            exact hs.1
          · intro c hc hcr hne
            simp only [Bool.and_eq_true, decide_eq_true_eq] at hs
            have hc1 : c = 2 * r + 1 := by omega
            subst hc1
            exact lessAt_true hr hP hs.2
        · refine ⟨2 * r + 1, if_neg hs, by omega, Or.inl rfl, ?_⟩
          intro c hc hcr hne
          have hc1 : c = 2 * r + 1 + 1 := by omega
          subst hc1
          simp only [Bool.and_eq_true, decide_eq_true_eq, not_and, Bool.not_eq_true] at hs
          have := lessAt_false hr hP (hs hc)
          exact this
      obtain ⟨c', hc'eq, hc'hi, hc'ch, hsib⟩ := hsel
      simp only [hc'eq]
      have hrl : first + r < d.length := by omega
      have hcl : first + c' < d.length := by omega
      by_cases hstop : (!lessAt lt d (first + r) (first + c')) = true
      · rw [if_pos hstop]
        simp only [Bool.not_eq_true'] at hstop
        have htop : leAt le d (first + c') (first + r) := lessAt_false hr hP hstop
        refine ⟨?_, Frame.same _ _ _⟩
        intro q c hq hc hcq
        by_cases hqr : q = r
        · subst hqr
          by_cases hcc : c = c'
          · subst hcc; exact htop
          · exact leAt_trans hr.trans hcl (hsib c hc hcq hcc) htop
        · exact i1 q c hq hqr hc hcq
      · rw [if_neg hstop]
        have hless : lessAt lt d (first + r) (first + c') = true := by
          simpa using hstop
        have hguard : leAt le d (first + r) (first + c') := lessAt_true hr hP hless
        have hP1 : ∀ x ∈ swapAt d (first + r) (first + c'), P x :=
          allP_perm (swapAt_perm _ _ _) hP
        have r' := ih c' (swapAt d (first + r) (first + c')) (by omega)
          (by rw [swapAt_length]; exact hlen) (by omega) hP1
          (by
            intro q c hq hqc hc hcq
            by_cases hqr : q = r
            · subst hqr
              by_cases hcc : c = c'
              · subst hcc
                exact leAt_congr d (first + q) (first + c)
                  (swapAt_get_right d _ _ hrl hcl) (swapAt_get_left d _ _ hrl hcl) hguard
              · exact leAt_congr d (first + c) (first + c')
                  (swapAt_get_other d _ _ _ hrl hcl (by omega) (by omega))
                  (swapAt_get_left d _ _ hrl hcl) (hsib c hc hcq hcc)
            · by_cases hcr : c = r
              · subst hcr
                exact leAt_congr d (first + c') (first + q)
                  (swapAt_get_left d _ _ hrl hcl)
                  (swapAt_get_other d _ _ _ hrl hcl (by omega) (by omega))
                  (i2 q c' hq hcq hc'hi hc'ch)
              · exact leAt_congr d (first + c) (first + q)
                  (swapAt_get_other d _ _ _ hrl hcl (by omega) (by omega))
                  (swapAt_get_other d _ _ _ hrl hcl (by omega) (by omega))
                  (i1 q c hq hqr hc hcq))
          (by
            intro q c hq hcq hc hcc
            have hqr : q = r := by omega
            subst hqr
            exact leAt_congr d (first + c) (first + c')
              (swapAt_get_other d _ _ _ hrl hcl (by omega) (by omega))
              (swapAt_get_left d _ _ hrl hcl)
              (i1 c' c (by omega) (by omega) hc hcc))
        exact ⟨r'.1, (swapAt_frame d (first + lo) (first + hi) (first + r) (first + c')
          (by omega) (by omega) (by omega) (by omega) hlen).andThen r'.2⟩

theorem heapBuild_spec (hr : Refines lt le P) (hi first : Nat) :
    ∀ (n : Nat) (d : List α), first + hi ≤ d.length → (∀ x ∈ d, P x) →
      HeapFrom le d first n hi →
      HeapFrom le (heapBuild lt hi first n d) first 0 hi ∧
      Frame first (first + hi) d (heapBuild lt hi first n d) := by
  intro n
  induction n with
  | zero =>
    intro d _ _ h
    exact ⟨h, Frame.same _ _ _⟩
  | succ i ih =>
    intro d hlen hP h
    simp only [heapBuild]
    have s := siftDown_spec hr hi first i hi i d (le_refl _) hlen (by omega) hP
      (fun q c hq hqi hc hcq => h q c (by omega) hc hcq)
      (fun q c hq hcq _ _ => absurd hcq (by omega))
    have r := ih (siftDown lt hi first hi i d) (by rw [s.2.1]; exact hlen)
      (allP_perm s.2.2.1 hP) s.1
    exact ⟨r.1, (s.2.widen (by omega) (le_refl _)).andThen r.2⟩

/-- In a heap every node is `le` the root. -/
theorem heap_root_max (htrans : ∀ a b c, le a b → le b c → le a c) {d : List α}
    {first m : Nat} (hh : HeapFrom le d first 0 m) (hlen : first + m ≤ d.length) :
    ∀ (r : Nat), 1 ≤ r → r < m → leAt le d (first + r) first := by
  intro r
  induction r using Nat.strong_induction_on with
  | _ r ih =>
    intro h1 hm
    have hc : leAt le d (first + r) (first + (r - 1) / 2) :=
      hh ((r - 1) / 2) r (Nat.zero_le _) hm (by omega)
    by_cases hq : (r - 1) / 2 = 0
    · rw [hq] at hc
      exact hc
    · have := ih ((r - 1) / 2) (by omega) (by omega) (by omega)
      exact leAt_trans htrans (by omega) hc this

theorem heapPop_spec (hr : Refines lt le P) (hi first : Nat) :
    ∀ (m : Nat) (d : List α), m ≤ hi → first + hi ≤ d.length → (∀ x ∈ d, P x) →
      HeapFrom le d first 0 m →
      (∀ k, first + m < k → k < first + hi → leAt le d (k - 1) k) →
      (∀ r, r < m → m < hi → leAt le d (first + r) (first + m)) →
      SortedSeg le (heapPop lt first m d) first (first + hi) ∧
      Frame first (first + hi) d (heapPop lt first m d) := by
  intro m
  induction m with
  | zero =>
    intro d _ _ _ _ s1 _
    exact ⟨fun k hk1 hk2 => s1 k (by omega) hk2, Frame.same _ _ _⟩
  | succ i ih =>
    intro d hm hlen hP hh s1 s2
    simp only [heapPop]
    have hfl : first < d.length := by omega
    have hil : first + i < d.length := by omega
    have hmax := heap_root_max hr.trans hh (by omega)
    have hP1 : ∀ x ∈ swapAt d first (first + i), P x := allP_perm (swapAt_perm _ _ _) hP
    have hlen1 : (swapAt d first (first + i)).length = d.length := swapAt_length _ _ _
    have s := siftDown_spec hr i first 0 i 0 (swapAt d first (first + i)) (le_refl _)
      (by omega) (by omega) hP1
      (by
        intro q c _ hq hc hcq
        exact leAt_congr d (first + c) (first + q)
          (swapAt_get_other d _ _ _ hfl hil (by omega) (by omega))
          (swapAt_get_other d _ _ _ hfl hil (by omega) (by omega))
          (hh q c (Nat.zero_le _) (by omega) hcq))
      (fun q c _ hcq _ _ => absurd hcq (by omega))
    obtain ⟨sh, sf⟩ := s
    have hP2 : ∀ x ∈ siftDown lt i first i 0 (swapAt d first (first + i)), P x :=
      allP_perm sf.2.1 hP1
    have r := ih (siftDown lt i first i 0 (swapAt d first (first + i))) (by omega)
      (by rw [sf.1, hlen1]; exact hlen) hP2 sh
      (by
        intro k hk1 hk2
        have e1 : (siftDown lt i first i 0 (swapAt d first (first + i)))[k]? =
            (swapAt d first (first + i))[k]? := sf.2.2.1 k (by omega)
        have e2 : (siftDown lt i first i 0 (swapAt d first (first + i)))[k - 1]? =
            (swapAt d first (first + i))[k - 1]? := sf.2.2.1 (k - 1) (by omega)
        by_cases hk : k = first + i + 1
        · subst hk
          refine leAt_congr d first (first + (i + 1)) ?_ ?_ (s2 0 (by omega) (by omega))
          · rw [e2]
            have : first + i + 1 - 1 = first + i := by omega
            rw [this]
            exact swapAt_get_right d _ _ hfl hil
          · rw [e1]
            exact swapAt_get_other d _ _ _ hfl hil (by omega) (by omega)
        · refine leAt_congr d (k - 1) k ?_ ?_ (s1 k (by omega) hk2)
          · rw [e2]
            exact swapAt_get_other d _ _ _ hfl hil (by omega) (by omega)
          · rw [e1]
            exact swapAt_get_other d _ _ _ hfl hil (by omega) (by omega))
      (by
        intro r hr1 hr2 x y hx hy
        have e1 : (siftDown lt i first i 0 (swapAt d first (first + i)))[first + i]? =
            (swapAt d first (first + i))[first + i]? := sf.2.2.1 (first + i) (by omega)
        rw [e1, swapAt_get_right d _ _ hfl hil] at hy
        obtain ⟨k', hk1, hk2, hx'⟩ := sf.2.2.2 (first + r) x (by omega) (by omega) hx
        rw [getElem?_swapAt d first (first + i) k' hfl hil] at hx'
        have h1 : k' ≠ first + i := by omega
        rw [if_neg h1] at hx'
        by_cases h2 : k' = first
        · rw [if_pos h2] at hx'
          exact hmax i (by omega) (by omega) x y hx' hy
        · rw [if_neg h2] at hx'
          have := hmax (k' - first) (by omega) (by omega)
          have e : first + (k' - first) = k' := by omega
          rw [e] at this
          exact this x y hx' hy)
    exact ⟨r.1, (swapAt_frame d first (first + hi) first (first + i) (le_refl _) (by omega)
      (by omega) (by omega) hlen).andThen ((sf.widen (by omega) (by omega)).andThen r.2)⟩

/-- `heapSort_func(data, a, b)` rearranges the range `[a, b)` and leaves its neighbours in
order. -/
theorem heapSort_spec (hr : Refines lt le P) (a b : Nat) (d : List α) (hab : a ≤ b)
    (hb : b ≤ d.length) (hP : ∀ x ∈ d, P x) :
    Frame a b d (heapSort lt d a b) ∧ SortedSeg le (heapSort lt d a b) a b := by
  simp only [heapSort]
  have hbuild := heapBuild_spec hr (b - a) a ((b - a - 1) / 2 + 1) d (by omega) hP
    (by
      intro r c hr1 hc hcr
      exact absurd hc (by omega))
  have hpop := heapPop_spec hr (b - a) a (b - a) (heapBuild lt (b - a) a ((b - a - 1) / 2 + 1) d)
    (le_refl _) (by rw [hbuild.2.1]; omega) (allP_perm hbuild.2.2.1 hP) hbuild.1
    (fun k hk1 hk2 => absurd hk2 (by omega)) (fun r _ h => absurd h (by omega))
  have e : a + (b - a) = b := by omega
  rw [e] at hbuild hpop
  exact ⟨hbuild.2.andThen hpop.2, hpop.1⟩

end

end

section
variable {α : Type}

theorem reverseRangeLoop_frame (a b : Nat) :
    ∀ (fuel i j : Nat) (d : List α), a ≤ i → j < b → b ≤ d.length →
      Frame a b d (reverseRangeLoop fuel i j d) := by
  intro fuel
  induction fuel with
  | zero => intro i j d _ _ _; exact Frame.same _ _ _
  | succ fuel ih =>
    intro i j d hi hj hb
    simp only [reverseRangeLoop]
    by_cases h : i < j
    · rw [if_pos h]
      exact (swapAt_frame d a b i j hi (by omega) (by omega) hj hb).andThen
        (ih (i + 1) (j - 1) (swapAt d i j) (by omega) (by omega)
          (by rw [swapAt_length]; exact hb))
    · rw [if_neg h]
      exact Frame.same _ _ _

theorem reverseRange_frame (a b : Nat) (d : List α) (hb : b ≤ d.length) :
    Frame a b d (reverseRange d a b) := by
  unfold reverseRange
  by_cases h : b - a = 0
  · rw [h]
    exact Frame.same _ _ _
  · exact reverseRangeLoop_frame a b (b - a) a (b - 1) d (le_refl _) (by omega) hb

theorem bitsLenAux_le : ∀ (fuel n : Nat), n ≤ fuel → 1 ≤ n → 2 ^ bitsLenAux fuel n ≤ 2 * n := by
  intro fuel
  induction fuel with
  | zero => intro n h1 h2; omega
  | succ fuel ih =>
    intro n h1 h2
    simp only [bitsLenAux]
    have hn : n ≠ 0 := by omega
    rw [if_neg hn]
    by_cases h : n / 2 = 0
    · rw [h]
      have e : bitsLenAux fuel 0 = 0 := by
        cases fuel with
        | zero => rfl
        | succ f => simp [bitsLenAux]
      rw [e]
      omega
    · have := ih (n / 2) (by omega) (by omega)
      rw [pow_succ]
      omega

theorem breakPatternsLoop_frame (a length modulus idx : Nat)
    (hm : modulus ≤ 2 * length) (hm0 : 0 < modulus) :
    ∀ (rounds i random : Nat) (d : List α),
      (∀ i', i ≤ i' → i' < i + rounds → a ≤ idx - 1 + i' ∧ idx - 1 + i' < a + length) →
      a + length ≤ d.length →
      Frame a (a + length) d (breakPatternsLoop a length modulus idx rounds i random d) := by
  intro rounds
  induction rounds with
  | zero => intro i random d _ _; exact Frame.same _ _ _
  | succ rounds ih =>
    intro i random d hidx hb
    simp only [breakPatternsLoop]
    have hand : xorshiftNext random &&& (modulus - 1) ≤ modulus - 1 := Nat.and_le_right
    have hother : (if xorshiftNext random &&& (modulus - 1) ≥ length then
        (xorshiftNext random &&& (modulus - 1)) - length
        else xorshiftNext random &&& (modulus - 1)) < length := by
      split <;> omega
    have h0 := hidx i (le_refl _) (by omega)
    exact (swapAt_frame d a (a + length) _ _ h0.1 h0.2 (by omega) (by omega) hb).andThen
      (ih (i + 1) _ _ (fun i' h1 h2 => hidx i' (by omega) (by omega))
        (by rw [swapAt_length]; exact hb))

theorem breakPatterns_frame (a b : Nat) (d : List α) (hab : a ≤ b) (hb : b ≤ d.length) :
    Frame a b d (breakPatterns d a b) := by
  unfold breakPatterns
  by_cases h : b - a ≥ 8
  · simp only [if_pos h]
    have hm : 2 ^ bitsLen (b - a) ≤ 2 * (b - a) := bitsLenAux_le _ _ (le_refl _) (by omega)
    have hm0 : 0 < 2 ^ bitsLen (b - a) := Nat.pow_pos (by decide)
    have r := breakPatternsLoop_frame a (b - a) (2 ^ bitsLen (b - a))
      (a + (b - a) / 4 * 2 - 1) hm hm0 3 0 (b - a) d
      (by intro i' h1 h2; omega) (by omega)
    have e : a + (b - a) = b := by omega
    rw [e] at r
    exact r
  · simp only [if_neg h]
    exact Frame.same _ _ _

theorem order2_mem (lt : α → α → Bool) (d : List α) (x y s : Nat) :
    ((order2 lt d x y s).1 = x ∧ (order2 lt d x y s).2.1 = y) ∨
    ((order2 lt d x y s).1 = y ∧ (order2 lt d x y s).2.1 = x) := by
  unfold order2
  split
  · exact Or.inr ⟨rfl, rfl⟩
  · exact Or.inl ⟨rfl, rfl⟩

theorem median_mem (lt : α → α → Bool) (d : List α) (x y z s : Nat) :
    (median lt d x y z s).1 = x ∨ (median lt d x y z s).1 = y ∨
    (median lt d x y z s).1 = z := by
  simp only [median]
  have h1 := order2_mem lt d x y s
  have h2 := order2_mem lt d (order2 lt d x y s).2.1 z (order2 lt d x y s).2.2
  have h3 := order2_mem lt d (order2 lt d x y s).1
    (order2 lt d (order2 lt d x y s).2.1 z (order2 lt d x y s).2.2).1
    (order2 lt d (order2 lt d x y s).2.1 z (order2 lt d x y s).2.2).2.2
  rcases h3 with ⟨_, e3⟩ | ⟨_, e3⟩ <;> rcases h2 with ⟨e2, _⟩ | ⟨e2, _⟩ <;>
    rcases h1 with ⟨e1, e1'⟩ | ⟨e1, e1'⟩ <;> simp_all

theorem choosePivot_range (lt : α → α → Bool) (d : List α) (a b : Nat) (h : 8 ≤ b - a) :
    a ≤ (choosePivot lt d a b).1 ∧ (choosePivot lt d a b).1 < b := by
  have key : ∀ r : Nat × Nat, (a ≤ r.1 ∧ r.1 < b) →
      a ≤ (if r.2 = 0 then (r.1, sortedHint.increasingHint)
        else if r.2 = 12 then (r.1, sortedHint.decreasingHint)
        else (r.1, sortedHint.unknownHint)).1 ∧
      (if r.2 = 0 then (r.1, sortedHint.increasingHint)
        else if r.2 = 12 then (r.1, sortedHint.decreasingHint)
        else (r.1, sortedHint.unknownHint)).1 < b := by
    intro r hr
    split
    · exact hr
    · split <;> exact hr
  unfold choosePivot
  simp only [if_pos h]
  apply key
  by_cases h50 : b - a ≥ 50
  · simp only [if_pos h50, medianAdjacent]
    have m1 := median_mem lt d (a + (b - a) / 4 * 1 - 1) (a + (b - a) / 4 * 1)
      (a + (b - a) / 4 * 1 + 1) 0
    generalize median lt d (a + (b - a) / 4 * 1 - 1) (a + (b - a) / 4 * 1)
      (a + (b - a) / 4 * 1 + 1) 0 = r1 at *
    have m2 := median_mem lt d (a + (b - a) / 4 * 2 - 1) (a + (b - a) / 4 * 2)
      (a + (b - a) / 4 * 2 + 1) r1.2
    generalize median lt d (a + (b - a) / 4 * 2 - 1) (a + (b - a) / 4 * 2)
      (a + (b - a) / 4 * 2 + 1) r1.2 = r2 at *
    have m3 := median_mem lt d (a + (b - a) / 4 * 3 - 1) (a + (b - a) / 4 * 3)
      (a + (b - a) / 4 * 3 + 1) r2.2
    generalize median lt d (a + (b - a) / 4 * 3 - 1) (a + (b - a) / 4 * 3)
      (a + (b - a) / 4 * 3 + 1) r2.2 = r3 at *
    have m4 := median_mem lt d r1.1 r2.1 r3.1 r3.2
    omega
  · simp only [if_neg h50]
    have m := median_mem lt d (a + (b - a) / 4 * 1) (a + (b - a) / 4 * 2)
      (a + (b - a) / 4 * 3) 0
    omega

end

section
variable {α : Type}

theorem shiftLeft_eq (lt : α → α → Bool) (j : Nat) (d : List α) :
    shiftLeft lt j d = insertionInner lt 0 j d := by
  induction j generalizing d with
  | zero => rfl
  | succ j ih =>
    simp only [shiftLeft, insertionInner]
    cases h : lessAt lt d (j + 1) j
    · simp
    · simp [ih]

section

variable {lt : α → α → Bool} {le : α → α → Prop} {P : α → Prop}

theorem scanSorted_spec (lt : α → α → Bool) (d : List α) (b : Nat) :
    ∀ (fuel i : Nat), b ≤ i + fuel → i ≤ b →
      i ≤ scanSorted lt d b fuel i ∧ scanSorted lt d b fuel i ≤ b ∧
      (∀ k, i ≤ k → k < scanSorted lt d b fuel i → lessAt lt d k (k - 1) = false) ∧
      (scanSorted lt d b fuel i < b →
        lessAt lt d (scanSorted lt d b fuel i) (scanSorted lt d b fuel i - 1) = true) := by
  intro fuel
  induction fuel with
  | zero =>
    intro i h1 h2
    have e : scanSorted lt d b 0 i = i := rfl
    rw [e]
    exact ⟨le_refl _, h2, fun k hk1 hk2 => absurd hk2 (by omega), fun h => absurd h (by omega)⟩
  | succ fuel ih =>
    intro i h1 h2
    simp only [scanSorted]
    by_cases hc : (decide (i < b) && !lessAt lt d i (i - 1)) = true
    · rw [if_pos hc]
      simp only [Bool.and_eq_true, decide_eq_true_eq, Bool.not_eq_true'] at hc
      obtain ⟨r1, r2, r3, r4⟩ := ih (i + 1) (by omega) (by omega)
      refine ⟨by omega, r2, ?_, r4⟩
      intro k hk1 hk2
      by_cases hk : k = i
      · subst hk; exact hc.2
      · exact r3 k (by omega) hk2
    · rw [if_neg hc]
      refine ⟨le_refl _, h2, fun k hk1 hk2 => absurd hk2 (by omega), ?_⟩
      intro h
      simp only [Bool.and_eq_true, decide_eq_true_eq, Bool.not_eq_true', not_and,
        Bool.not_eq_false] at hc
      exact hc h

theorem shiftRight_spec (hr : Refines lt le P) (b : Nat) :
    ∀ (fuel j : Nat) (d : List α), 1 ≤ j → b ≤ d.length → (∀ x ∈ d, P x) →
      (∀ c, Cut le d c → Cut le (shiftRight lt b fuel j d) c) ∧
      (shiftRight lt b fuel j d).length = d.length ∧
      (shiftRight lt b fuel j d).Perm d ∧
      (∀ k, k + 1 < j → (shiftRight lt b fuel j d)[k]? = d[k]?) := by
  intro fuel
  induction fuel with
  | zero => intro j d _ _ _; exact ⟨fun _ h => h, rfl, List.Perm.refl _, fun _ _ => rfl⟩
  | succ fuel ih =>
    intro j d hj hb hP
    simp only [shiftRight]
    by_cases hjb : j < b
    · rw [if_pos hjb]
      by_cases hstop : (!lessAt lt d j (j - 1)) = true
      · rw [if_pos hstop]
        exact ⟨fun _ h => h, rfl, List.Perm.refl _, fun _ _ => rfl⟩
      · rw [if_neg hstop]
        have hless : lessAt lt d j (j - 1) = true := by simpa using hstop
        have hguard : leAt le d j (j - 1) := lessAt_true hr hP hless
        obtain ⟨j0, rfl⟩ : ∃ j0, j = j0 + 1 := ⟨j - 1, by omega⟩
        simp only [Nat.add_sub_cancel] at hguard ⊢
        have hj1 : j0 + 1 < d.length := by omega
        have hj0 : j0 < d.length := by omega
        obtain ⟨r1, r2, r3, r4⟩ := ih (j0 + 1 + 1) (swapAt d (j0 + 1) j0) (by omega)
          (by rw [swapAt_length]; exact hb) (allP_perm (swapAt_perm _ _ _) hP)
        refine ⟨fun c h => r1 c (swapAt_adj_cut hr.trans d j0 hj1 hguard c h),
          r2.trans (swapAt_length _ _ _), r3.trans (swapAt_perm _ _ _), ?_⟩
        intro k hk
        rw [r4 k (by omega)]
        exact swapAt_get_other d _ _ _ hj1 hj0 (by omega) (by omega)
    · rw [if_neg hjb]
      exact ⟨fun _ h => h, rfl, List.Perm.refl _, fun _ _ => rfl⟩

theorem partialInsertionSortLoop_spec (hr : Refines lt le P) (a b : Nat) :
    ∀ (steps i : Nat) (d : List α), a < i → i ≤ b → b ≤ d.length → (∀ x ∈ d, P x) →
      (0 < a → Cut le d a) → SortedSeg le d a i →
      (∀ c, Cut le d c → Cut le (partialInsertionSortLoop lt a b steps i d).1 c) ∧
      (partialInsertionSortLoop lt a b steps i d).1.length = d.length ∧
      (partialInsertionSortLoop lt a b steps i d).1.Perm d ∧
      ((partialInsertionSortLoop lt a b steps i d).2 = true →
        SortedSeg le (partialInsertionSortLoop lt a b steps i d).1 a b) := by
  intro steps
  induction steps with
  | zero =>
    intro i d _ _ _ _ _ _
    exact ⟨fun _ h => h, rfl, List.Perm.refl _, fun h => absurd h (by simp [partialInsertionSortLoop])⟩
  | succ steps ih =>
    intro i d hai hib hb hP hcut hs
    obtain ⟨u1, u2, u3, u4⟩ := scanSorted_spec lt d b (b - i) i (by omega) hib
    simp only [partialInsertionSortLoop]
    generalize scanSorted lt d b (b - i) i = i1 at *
    have hs1 : SortedSeg le d a i1 := by
      intro k hk1 hk2
      by_cases hk : k < i
      · exact hs k hk1 hk
      · exact lessAt_false hr hP (u3 k (by omega) hk2)
    by_cases hfin : i1 = b
    · rw [if_pos hfin]
      subst hfin
      exact ⟨fun _ h => h, rfl, List.Perm.refl _, fun _ => hs1⟩
    · rw [if_neg hfin]
      by_cases hshort : b - a < 50
      · rw [if_pos hshort]
        exact ⟨fun _ h => h, rfl, List.Perm.refl _, fun h => absurd h (by simp)⟩
      · rw [if_neg hshort]
        obtain ⟨i0, rfl⟩ : ∃ i0, i1 = i0 + 1 := ⟨i1 - 1, by omega⟩
        have hless := u4 (by omega)
        simp only [Nat.add_sub_cancel] at hless ⊢
        have hguard : leAt le d (i0 + 1) i0 := lessAt_true hr hP hless
        have hi1 : i0 + 1 < d.length := by omega
        have hi0 : i0 < d.length := by omega
        -- the swap
        have hP1 : ∀ x ∈ swapAt d (i0 + 1) i0, P x := allP_perm (swapAt_perm _ _ _) hP
        have hlen1 : (swapAt d (i0 + 1) i0).length = d.length := swapAt_length _ _ _
        have hcuts1 : ∀ c, Cut le d c → Cut le (swapAt d (i0 + 1) i0) c :=
          fun c h => swapAt_adj_cut hr.trans d i0 hi1 hguard c h
        -- the shift to the left
        have hleft : ∃ d2, (if i0 + 1 - a ≥ 2 then shiftLeft lt i0 (swapAt d (i0 + 1) i0)
              else swapAt d (i0 + 1) i0) = d2 ∧
            (∀ c, Cut le d c → Cut le d2 c) ∧ d2.length = d.length ∧ d2.Perm d ∧
            SortedSeg le d2 a (i0 + 1) := by
          by_cases h2 : i0 + 1 - a ≥ 2
          · refine ⟨_, if_pos h2, ?_⟩
            rw [shiftLeft_eq]
            have r := insertionInner_spec hr 0 a i0 (Nat.zero_le _) i0
              (swapAt d (i0 + 1) i0) (le_refl _) (by omega) hP1
              (fun h => hcuts1 a (hcut h))
              (by
                intro k hk1 hk2 hk3 _
                exact leAt_congr d (k - 1) k
                  (swapAt_get_other d _ _ _ hi1 hi0 (by omega) (by omega))
                  (swapAt_get_other d _ _ _ hi1 hi0 (by omega) (by omega))
                  (hs1 k hk1 (by omega)))
              (fun _ h => absurd h (by omega))
              (fun _ h _ => absurd h (by omega))
            obtain ⟨r1, r2, r3, r4, _, _⟩ := r
            exact ⟨fun c h => r1 c (hcuts1 c h), r2.trans hlen1,
              r3.trans (swapAt_perm _ _ _), fun k hk1 hk2 => r4 k hk1 (by omega)⟩
          · refine ⟨_, if_neg h2, hcuts1, hlen1, swapAt_perm _ _ _, ?_⟩
            intro k hk1 hk2
            exact absurd hk2 (by omega)
        obtain ⟨d2, hd2, l1, l2, l3, l4⟩ := hleft
        rw [hd2]
        have hright : ∃ d3, (if b - (i0 + 1) ≥ 2 then
              shiftRight lt b (b - (i0 + 1 + 1)) (i0 + 1 + 1) d2 else d2) = d3 ∧
            (∀ c, Cut le d c → Cut le d3 c) ∧ d3.length = d.length ∧ d3.Perm d ∧
            SortedSeg le d3 a (i0 + 1) := by
          by_cases h2 : b - (i0 + 1) ≥ 2
          · refine ⟨_, if_pos h2, ?_⟩
            obtain ⟨r1, r2, r3, r4⟩ := shiftRight_spec hr b (b - (i0 + 1 + 1)) (i0 + 1 + 1) d2
              (by omega) (by omega) (allP_perm l3 hP)
            refine ⟨fun c h => r1 c (l1 c h), r2.trans l2, r3.trans l3, ?_⟩
            intro k hk1 hk2
            exact leAt_congr d2 (k - 1) k (r4 (k - 1) (by omega)) (r4 k (by omega))
              (l4 k hk1 hk2)
          · exact ⟨_, if_neg h2, l1, l2, l3, l4⟩
        obtain ⟨d3, hd3, m1, m2, m3, m4⟩ := hright
        rw [hd3]
        obtain ⟨r1, r2, r3, r4⟩ := ih (i0 + 1) d3 (by omega) (by omega) (by omega)
          (allP_perm m3 hP) (fun h => m1 a (hcut h)) m4
        exact ⟨fun c h => r1 c (m1 c h), r2.trans m2, r3.trans m3, r4⟩

/-- `partialInsertionSort_func(data, a, b)` keeps every cut of the slice, and when it
reports the range as sorted, its neighbours are in order. -/
theorem partialInsertionSort_spec (hr : Refines lt le P) (a b : Nat) (d : List α)
    (hab : a < b) (hb : b ≤ d.length) (hP : ∀ x ∈ d, P x) (hcut : 0 < a → Cut le d a) :
    (∀ c, Cut le d c → Cut le (partialInsertionSort lt d a b).1 c) ∧
    (partialInsertionSort lt d a b).1.length = d.length ∧
    (partialInsertionSort lt d a b).1.Perm d ∧
    ((partialInsertionSort lt d a b).2 = true →
      SortedSeg le (partialInsertionSort lt d a b).1 a b) := by
  unfold partialInsertionSort
  exact partialInsertionSortLoop_spec hr a b 5 (a + 1) d (by omega) (by omega) hb hP hcut
    (fun k hk1 hk2 => absurd hk2 (by omega))

end

end

section
variable {α : Type}

section

variable {lt : α → α → Bool} {le : α → α → Prop} {P : α → Prop}

theorem SortsRange.of_presOut {a b : Nat} {d d1 d' : List α} (h1 : PresOut le a b d d1)
    (h2 : SortsRange le a b d1 d') : SortsRange le a b d d' :=
  ⟨h1.trans h2.1, h2.2⟩

theorem sortsRange_of_sortedSeg (htrans : ∀ a b c, le a b → le b c → le a c) {a b : Nat}
    {d d' : List α} (hb : b ≤ d.length) (ha : Cut le d a) (hcb : Cut le d b)
    (h1 : PresOut le a b d d') (h2 : SortedSeg le d' a b) : SortsRange le a b d d' :=
  ⟨h1, cuts_of_sortedSeg htrans h2 (by rw [h1.1]; exact hb) (h1.2.2 a (Or.inl (le_refl _)) ha)
    (h1.2.2 b (Or.inr (le_refl _)) hcb)⟩

theorem cut_of_partition (htrans : ∀ a b c, le a b → le b c → le a c) {d : List α}
    {a b mid : Nat} (hb : b ≤ d.length) (ham : a ≤ mid) (hmb : mid < b) (ha : Cut le d a)
    (hcb : Cut le d b) (h1 : ∀ k, a ≤ k → k < mid → leAt le d k mid)
    (h2 : ∀ k, mid < k → k < b → leAt le d mid k) :
    Cut le d mid ∧ Cut le d (mid + 1) := by
  have hm : mid < d.length := by omega
  constructor
  · intro p q hp hq
    by_cases hpa : p < a
    · exact ha p q hpa (by omega)
    · by_cases hqb : b ≤ q
      · exact hcb p q (by omega) hqb
      · by_cases hqm : q = mid
        · subst hqm; exact h1 p (by omega) hp
        · exact leAt_trans htrans hm (h1 p (by omega) hp) (h2 q (by omega) (by omega))
  · intro p q hp hq
    by_cases hpa : p < a
    · exact ha p q hpa (by omega)
    · by_cases hqb : b ≤ q
      · exact hcb p q (by omega) hqb
      · by_cases hpm : p = mid
        · subst hpm; exact h2 q (by omega) (by omega)
        · exact leAt_trans htrans hm (h1 p (by omega) (by omega)) (h2 q (by omega) (by omega))

theorem cut_of_partitionEqual (htrans : ∀ a b c, le a b → le b c → le a c) {d : List α}
    {a b mid : Nat} (hb : b ≤ d.length) (ham : a < mid) (hmb : mid ≤ b) (ha : Cut le d a)
    (hcb : Cut le d b) (h1 : ∀ k, a < k → k < mid → leAt le d k a)
    (h2 : ∀ k, a < k → k < b → leAt le d a k) :
    ∀ c, a < c → c ≤ mid → Cut le d c := by
  intro c hac hcm p q hp hq
  have hal : a < d.length := by omega
  by_cases hpa : p < a
  · exact ha p q hpa (by omega)
  · by_cases hqb : b ≤ q
    · exact hcb p q (by omega) hqb
    · by_cases hpe : p = a
      · subst hpe; exact h2 q (by omega) (by omega)
      · exact leAt_trans htrans hal (h1 p (by omega) (by omega)) (h2 q (by omega) (by omega))

theorem pdqsortLoop_spec (hr : Refines lt le P) :
    ∀ (fuel : Nat) (d : List α) (a b limit : Nat) (wb wp : Bool), a ≤ b → b ≤ d.length →
      b - a < fuel → (∀ x ∈ d, P x) → Cut le d a → Cut le d b →
      SortsRange le a b d (pdqsortLoop lt fuel d a b limit wb wp) := by
  intro fuel
  induction fuel with
  | zero => intro d a b _ _ _ _ _ h; exact absurd h (by omega)
  | succ fuel ih =>
    intro d a b limit wb wp hab hb hfuel hP hca hcb
    simp only [pdqsortLoop]
    by_cases hshort : b - a ≤ 12
    · rw [if_pos hshort]
      have r := insertionSort_spec hr a b d hb hP
      exact sortsRange_of_sortedSeg hr.trans hb hca hcb r.1.presOut r.2
    · rw [if_neg hshort]
      by_cases hlim : limit = 0
      · rw [if_pos hlim]
        have r := heapSort_spec hr a b d hab hb hP
        exact sortsRange_of_sortedSeg hr.trans hb hca hcb r.1.presOut r.2
      · rw [if_neg hlim]
        have f1 : Frame a b d (if (!wb) = true then breakPatterns d a b else d) := by
          split
          · exact breakPatterns_frame a b d hab hb
          · exact Frame.same _ _ _
        generalize (if (!wb) = true then breakPatterns d a b else d) = d1 at f1 ⊢
        generalize (if (!wb) = true then limit - 1 else limit) = limit1
        have hb1 : b ≤ d1.length := by rw [f1.1]; exact hb
        have hc := choosePivot_range lt d1 a b (by omega)
        generalize choosePivot lt d1 a b = c at hc ⊢
        have f2 : Frame a b d1 (if c.2 = sortedHint.decreasingHint then reverseRange d1 a b
            else d1) := by
          split
          · exact reverseRange_frame a b d1 hb1
          · exact Frame.same _ _ _
        generalize (if c.2 = sortedHint.decreasingHint then reverseRange d1 a b else d1) = d2
          at f2 ⊢
        have hpv : a ≤ (if c.2 = sortedHint.decreasingHint then b - 1 - (c.1 - a) else c.1) ∧
            (if c.2 = sortedHint.decreasingHint then b - 1 - (c.1 - a) else c.1) < b := by
          split <;> omega
        generalize (if c.2 = sortedHint.decreasingHint then b - 1 - (c.1 - a) else c.1) = pivot
          at hpv ⊢
        generalize (if c.2 = sortedHint.decreasingHint then sortedHint.increasingHint
          else c.2) = hint
        have f12 : Frame a b d d2 := f1.andThen f2
        have hb2 : b ≤ d2.length := by rw [f12.1]; exact hb
        have hP2 : ∀ x ∈ d2, P x := allP_perm f12.2.1 hP
        have p12 : PresOut le a b d d2 := f12.presOut
        have hca2 : Cut le d2 a := p12.2.2 a (Or.inl (le_refl _)) hca
        have hcb2 : Cut le d2 b := p12.2.2 b (Or.inr (le_refl _)) hcb
        have hr3 : (∀ c, Cut le d2 c → Cut le (if (wb && wp &&
              decide (hint = sortedHint.increasingHint)) = true then
              partialInsertionSort lt d2 a b else (d2, false)).1 c) ∧
            (if (wb && wp && decide (hint = sortedHint.increasingHint)) = true then
              partialInsertionSort lt d2 a b else (d2, false)).1.length = d2.length ∧
            (if (wb && wp && decide (hint = sortedHint.increasingHint)) = true then
              partialInsertionSort lt d2 a b else (d2, false)).1.Perm d2 ∧
            ((if (wb && wp && decide (hint = sortedHint.increasingHint)) = true then
              partialInsertionSort lt d2 a b else (d2, false)).2 = true →
              SortedSeg le (if (wb && wp && decide (hint = sortedHint.increasingHint)) = true
                then partialInsertionSort lt d2 a b else (d2, false)).1 a b) := by
          split
          · exact partialInsertionSort_spec hr a b d2 (by omega) hb2 hP2 (fun _ => hca2)
          · exact ⟨fun _ h => h, rfl, List.Perm.refl _, fun h => absurd h (by simp)⟩
        generalize (if (wb && wp && decide (hint = sortedHint.increasingHint)) = true then
          partialInsertionSort lt d2 a b else (d2, false)) = r at hr3 ⊢
        obtain ⟨d3, ok⟩ := r
        simp only at hr3 ⊢
        obtain ⟨r1, r2, r3, r4⟩ := hr3
        have p23 : PresOut le a b d2 d3 := PresOut.allCuts r2 r3 r1 a b
        have p13 : PresOut le a b d d3 := p12.trans p23
        have hb3 : b ≤ d3.length := by rw [r2]; exact hb2
        have hP3 : ∀ x ∈ d3, P x := allP_perm r3 hP2
        have hca3 : Cut le d3 a := r1 a hca2
        have hcb3 : Cut le d3 b := r1 b hcb2
        by_cases hok : ok = true
        · rw [if_pos hok]
          exact sortsRange_of_sortedSeg hr.trans hb hca hcb p13 (r4 hok)
        · rw [if_neg hok]
          refine SortsRange.of_presOut p13 ?_
          have hpl : pivot < d3.length := by omega
          by_cases he : (decide (a > 0) && !lessAt lt d3 (a - 1) pivot) = true
          · rw [if_pos he]
            simp only [Bool.and_eq_true, decide_eq_true_eq, Bool.not_eq_true'] at he
            obtain ⟨ha0, hle⟩ := he
            have hpa : leAt le d3 pivot (a - 1) := lessAt_false hr hP3 hle
            have hmin : ∀ k, a ≤ k → k < b → k ≠ pivot → leAt le d3 pivot k :=
              fun k hk1 hk2 _ => leAt_trans hr.trans (by omega) hpa
                (hca3 (a - 1) k (by omega) hk1)
            have e := partitionEqual_spec hr d3 a b pivot hpv.1 hpv.2 hb3 hP3 hmin
            generalize partitionEqual lt d3 a b pivot = pe at e ⊢
            obtain ⟨d4, mid⟩ := pe
            simp only at e ⊢
            obtain ⟨e1, e2, e3, e4, e5⟩ := e
            have p34 : PresOut le a b d3 d4 := e1.presOut
            have hb4 : b ≤ d4.length := by rw [e1.1]; exact hb3
            have hca4 : Cut le d4 a := p34.2.2 a (Or.inl (le_refl _)) hca3
            have hcb4 : Cut le d4 b := p34.2.2 b (Or.inr (le_refl _)) hcb3
            have hcuts := cut_of_partitionEqual hr.trans hb4 e2 e3 hca4 hcb4 e4 e5
            have rec := ih d4 mid b limit1 wb wp e3 hb4 (by omega) (allP_perm e1.2.1 hP3)
              (hcuts mid e2 (le_refl _)) hcb4
            refine ⟨p34.trans (rec.1.mono (by omega) (le_refl _)), ?_⟩
            intro c hc1 hc2
            by_cases hcm : c ≤ mid
            · exact rec.1.2.2 c (Or.inl hcm) (hcuts c hc1 hcm)
            · exact rec.2 c (by omega) hc2
          · rw [if_neg he]
            have e := partition_spec hr d3 a b pivot hpv.1 hpv.2 hb3 hP3
            generalize partition lt d3 a b pivot = pe at e ⊢
            obtain ⟨d4, mid, ap⟩ := pe
            simp only at e ⊢
            obtain ⟨e1, e2, e3, e4, e5⟩ := e
            have p34 : PresOut le a b d3 d4 := e1.presOut
            have hb4 : b ≤ d4.length := by rw [e1.1]; exact hb3
            have hP4 : ∀ x ∈ d4, P x := allP_perm e1.2.1 hP3
            have hca4 : Cut le d4 a := p34.2.2 a (Or.inl (le_refl _)) hca3
            have hcb4 : Cut le d4 b := p34.2.2 b (Or.inr (le_refl _)) hcb3
            obtain ⟨hcm, hcm1⟩ := cut_of_partition hr.trans hb4 e2 e3 hca4 hcb4 e4 e5
            by_cases hl : mid - a < b - mid
            · rw [if_pos hl]
              have recL := ih d4 a mid limit1 true true e2 (by omega) (by omega) hP4 hca4 hcm
              generalize pdqsortLoop lt fuel d4 a mid limit1 true true = dL at recL ⊢
              have hbL : b ≤ dL.length := by rw [recL.1.1]; exact hb4
              have hcL1 : Cut le dL (mid + 1) := recL.1.2.2 (mid + 1) (Or.inr (by omega)) hcm1
              have hcLb : Cut le dL b := recL.1.2.2 b (Or.inr (by omega)) hcb4
              have recR := ih dL (mid + 1) b limit1 (decide (mid - a ≥ (b - a) / 8)) ap
                (by omega) hbL (by omega) (allP_perm recL.1.2.1 hP4) hcL1 hcLb
              refine ⟨p34.trans ((recL.1.mono (le_refl _) (by omega)).trans
                (recR.1.mono (by omega) (le_refl _))), ?_⟩
              intro c hc1 hc2
              by_cases h1 : c < mid
              · exact recR.1.2.2 c (Or.inl (by omega)) (recL.2 c hc1 h1)
              · by_cases h2 : c = mid
                · subst h2
                  exact recR.1.2.2 c (Or.inl (by omega))
                    (recL.1.2.2 c (Or.inr (le_refl _)) hcm)
                · by_cases h3 : c = mid + 1
                  · subst h3
                    exact recR.1.2.2 (mid + 1) (Or.inl (le_refl _)) hcL1
                  · exact recR.2 c (by omega) hc2
            · rw [if_neg hl]
              have recR := ih d4 (mid + 1) b limit1 true true (by omega) hb4 (by omega) hP4
                hcm1 hcb4
              generalize pdqsortLoop lt fuel d4 (mid + 1) b limit1 true true = dR at recR ⊢
              have hbR : b ≤ dR.length := by rw [recR.1.1]; exact hb4
              have hcRa : Cut le dR a := recR.1.2.2 a (Or.inl (by omega)) hca4
              have hcRm : Cut le dR mid := recR.1.2.2 mid (Or.inl (by omega)) hcm
              have recL := ih dR a mid limit1 (decide (b - mid ≥ (b - a) / 8)) ap e2
                (by omega) (by omega) (allP_perm recR.1.2.1 hP4) hcRa hcRm
              refine ⟨p34.trans ((recR.1.mono (by omega) (le_refl _)).trans
                (recL.1.mono (le_refl _) (by omega))), ?_⟩
              intro c hc1 hc2
              by_cases h1 : c < mid
              · exact recL.2 c hc1 h1
              · by_cases h2 : c = mid
                · subst h2
                  exact recL.1.2.2 c (Or.inr (le_refl _)) hcRm
                · by_cases h3 : c = mid + 1
                  · subst h3
                    exact recL.1.2.2 (mid + 1) (Or.inr (by omega))
                      (recR.1.2.2 (mid + 1) (Or.inl (le_refl _)) hcm1)
                  · exact recL.1.2.2 c (Or.inr (by omega)) (recR.2 c (by omega) hc2)

/-- Cuts at every index make the whole slice ordered. -/
theorem pairwise_of_cuts {d : List α} (h : ∀ c, 0 < c → c < d.length → Cut le d c) :
    List.Pairwise le d := by
  rw [List.pairwise_iff_getElem]
  intro i j hi hj hij
  exact h j (by omega) hj i j hij (le_refl _) _ _ (List.getElem?_eq_getElem hi)
    (List.getElem?_eq_getElem hj)

/-- `sort.Slice(x, less)` rearranges the slice and leaves it ordered by every transitive
relation `le` that `less` refines on the elements of the slice. -/
theorem sortSlice_sorted (hr : Refines lt le P) (x : List α) (hP : ∀ e ∈ x, P e) :
    (sortSlice x lt).Perm x ∧ List.Pairwise le (sortSlice x lt) := by
  have h := pdqsortLoop_spec hr (x.length + 1) x 0 x.length (bitsLen x.length) true true
    (Nat.zero_le _) (le_refl _) (by omega) hP
    (fun p q hp _ => absurd hp (by omega))
    (fun p q _ hq a b _ hb => by
      rw [List.getElem?_eq_none (by omega)] at hb
      exact absurd hb (by simp))
  refine ⟨h.1.2.1, pairwise_of_cuts ?_⟩
  intro c hc1 hc2
  exact h.2 c hc1 (by rw [show (sortSlice x lt).length = x.length from h.1.1] at hc2; exact hc2)

end

end

section
variable {α : Type}

theorem ordered_of_pairwise (lt : α → α → Bool) (d : List α)
    (h : List.Pairwise (fun p n => lt n p = false) d) : Ordered lt d := by
  intro i j hij
  unfold lessAt
  by_cases hj : j < d.length
  · have hi : i < d.length := by omega
    rw [List.getElem?_eq_getElem hj, List.getElem?_eq_getElem hi]
    exact (List.pairwise_iff_getElem.mp h) i j hi hj hij
  · rw [List.getElem?_eq_none (by omega)]

section

variable {lt : α → α → Bool} {d : List α}

theorem insertionInner_ordered (h : Ordered lt d) (a j : Nat) :
    insertionInner lt a j d = d := by
  cases j with
  | zero => rfl
  | succ j =>
    simp only [insertionInner]
    rw [h j (j + 1) (by omega)]
    simp

theorem insertionOuter_ordered (h : Ordered lt d) (a b : Nat) :
    ∀ (fuel i : Nat), insertionOuter lt a b fuel i d = d := by
  intro fuel
  induction fuel with
  | zero => intro i; rfl
  | succ fuel ih =>
    intro i
    simp only [insertionOuter, insertionInner_ordered h, ih]
    split <;> rfl

theorem order2_ordered (h : Ordered lt d) (x y s : Nat) (hxy : x < y) :
    order2 lt d x y s = (x, y, s) := by
  unfold order2
  rw [h x y hxy]
  simp

theorem median_ordered (h : Ordered lt d) (x y z s : Nat) (hxy : x < y) (hyz : y < z) :
    median lt d x y z s = (y, s) := by
  simp only [median, order2_ordered h x y s hxy, order2_ordered h y z s hyz]

theorem choosePivot_ordered (h : Ordered lt d) (a b : Nat) :
    (choosePivot lt d a b).2 = sortedHint.increasingHint := by
  have key : ∀ r : Nat × Nat, r.2 = 0 →
      (if r.2 = 0 then (r.1, sortedHint.increasingHint)
        else if r.2 = 12 then (r.1, sortedHint.decreasingHint)
        else (r.1, sortedHint.unknownHint)).2 = sortedHint.increasingHint := by
    intro r hr
    rw [if_pos hr]
  unfold choosePivot
  apply key
  by_cases h8 : b - a ≥ 8
  · rw [if_pos h8]
    by_cases h50 : b - a ≥ 50
    · rw [if_pos h50]
      have m1 := median_ordered h (a + (b - a) / 4 * 1 - 1) (a + (b - a) / 4 * 1)
        (a + (b - a) / 4 * 1 + 1) 0 (by omega) (by omega)
      have m2 := median_ordered h (a + (b - a) / 4 * 2 - 1) (a + (b - a) / 4 * 2)
        (a + (b - a) / 4 * 2 + 1) 0 (by omega) (by omega)
      have m3 := median_ordered h (a + (b - a) / 4 * 3 - 1) (a + (b - a) / 4 * 3)
        (a + (b - a) / 4 * 3 + 1) 0 (by omega) (by omega)
      have m4 := median_ordered h (a + (b - a) / 4 * 1) (a + (b - a) / 4 * 2)
        (a + (b - a) / 4 * 3) 0 (by omega) (by omega)
      simp only [medianAdjacent, m1, m2, m3, m4]
    · rw [if_neg h50, median_ordered h _ _ _ _ (by omega) (by omega)]
  · rw [if_neg h8]

theorem scanSorted_ordered (h : Ordered lt d) (b : Nat) :
    ∀ (fuel i : Nat), 1 ≤ i → i ≤ b → b ≤ i + fuel → scanSorted lt d b fuel i = b := by
  intro fuel
  induction fuel with
  | zero => intro i _ h1 h2; simp only [scanSorted]; omega
  | succ fuel ih =>
    intro i hi h1 h2
    simp only [scanSorted]
    rw [h (i - 1) i (by omega)]
    by_cases hib : i < b
    · simp only [hib, decide_True, Bool.not_false, Bool.and_self, if_true]
      exact ih (i + 1) (by omega) (by omega) (by omega)
    · simp only [hib, decide_False, Bool.false_and, Bool.false_eq_true, if_false]
      omega

theorem partialInsertionSort_ordered (h : Ordered lt d) (a b : Nat) (hab : a < b) :
    partialInsertionSort lt d a b = (d, true) := by
  unfold partialInsertionSort
  rw [show (5 : Nat) = 4 + 1 from rfl, partialInsertionSortLoop]
  simp only [scanSorted_ordered h b (b - (a + 1)) (a + 1) (by omega) (by omega) (by omega),
    if_true]

theorem bitsLen_ne_zero (n : Nat) (hn : 1 ≤ n) : bitsLen n ≠ 0 := by
  unfold bitsLen
  obtain ⟨m, rfl⟩ : ∃ m, n = m + 1 := ⟨n - 1, by omega⟩
  simp [bitsLenAux]

/-- A slice in which no element is `less` than an earlier one is left as it is by
`sort.Slice`. -/
theorem sortSlice_ordered (h : Ordered lt d) : sortSlice d lt = d := by
  unfold sortSlice
  simp only [pdqsortLoop]
  by_cases hshort : d.length - 0 ≤ 12
  · rw [if_pos hshort]
    exact insertionOuter_ordered h _ _ _ _
  · rw [if_neg hshort, if_neg (bitsLen_ne_zero _ (by omega))]
    simp only [Bool.not_true, Bool.false_eq_true, if_false, choosePivot_ordered h,
      Bool.and_self, decide_True, if_true, reduceCtorEq,
      partialInsertionSort_ordered h 0 d.length (by omega)]

end

end

end gosort

/-! ## Theorems: sorting -/

namespace filesystem

theorem ltChars_iff (a b : List Char) : ltChars a b = true ↔ a < b := by
  induction a generalizing b with
  | nil =>
    cases b with
    | nil => simp [ltChars]
    | cons c cs => simpa [ltChars] using List.nil_lt_cons c cs
  | cons x xs ih =>
    cases b with
    | nil => simp [ltChars]
    | cons c cs =>
      simp only [ltChars]
      by_cases h : x < c
      · simp only [h, if_true, true_iff]
        exact List.Lex.rel h
      · by_cases h2 : x = c
        · subst h2
          simp only [h, if_false, if_true, ih]
          exact List.Lex.cons_iff.symm
        · simp only [h, h2, if_false]
          constructor
          · intro hf; cases hf
          · intro hl
            cases hl with
            | cons h' => exact absurd rfl h2
            | rel h' => exact absurd h' h

/-- The comparison `strLess` is the order `<` of strings. -/
theorem strLess_iff (a b : String) : strLess a b = true ↔ a < b := by
  rw [String.lt_iff_toList_lt]
  exact ltChars_iff a.data b.data

theorem strLess_eq_false_iff (a b : String) : strLess a b = false ↔ b ≤ a := by
  rw [← not_lt, ← strLess_iff, Bool.not_eq_true]

/-! ### The comparison of `SortEntries` -/

theorem Time.After_asymm (t u : Time) (h : t.After u = true) : u.After t = false := by
  unfold Time.After at h ⊢
  rw [Nat.land_comm u.wall t.wall]
  by_cases hm : t.wall &&& u.wall &&& hasMonotonic ≠ 0
  · rw [if_pos hm] at h ⊢
    simp only [decide_eq_true_eq, decide_eq_false_iff_not] at h ⊢
    omega
  · rw [if_neg hm] at h ⊢
    simp only [Bool.or_eq_true, Bool.and_eq_true, decide_eq_true_eq,
      Bool.or_eq_false_iff, Bool.and_eq_false_iff, decide_eq_false_iff_not] at h ⊢
    generalize t.sec = a at h ⊢
    generalize u.sec = b at h ⊢
    omega

theorem strLess_asymm (a b : String) (h : strLess a b = true) : strLess b a = false := by
  rw [strLess_iff] at h
  rw [strLess_eq_false_iff]
  exact le_of_lt h

/-- The comparison of `SortEntries` never holds in both directions. -/
theorem less_asymm (k : SortBy) (a b : FileEntry) (h : less k a b = true) :
    less k b a = false := by
  unfold less at h ⊢
  by_cases hd : a.IsDir = b.IsDir
  · have hd1 : ¬ (a.IsDir ≠ b.IsDir) := fun e => e hd
    have hd2 : ¬ (b.IsDir ≠ a.IsDir) := fun e => e hd.symm
    rw [if_neg hd1] at h
    rw [if_neg hd2]
    by_cases hk : k = SortBySize
    · rw [if_pos hk] at h ⊢
      by_cases hs : a.Size = b.Size
      · rw [if_pos hs] at h
        rw [if_pos hs.symm]
        exact strLess_asymm _ _ h
      · rw [if_neg hs] at h
        rw [if_neg (fun e => hs e.symm)]
        simp only [decide_eq_true_eq, decide_eq_false_iff_not] at h ⊢
        omega
    · rw [if_neg hk] at h ⊢
      by_cases hm : k = SortByModTime
      · rw [if_pos hm] at h ⊢
        by_cases ht : a.ModTime = b.ModTime
        · rw [if_pos ht] at h
          rw [if_pos ht.symm]
          exact strLess_asymm _ _ h
        · rw [if_neg ht] at h
          rw [if_neg (fun e => ht e.symm)]
          exact Time.After_asymm _ _ h
      · rw [if_neg hm] at h ⊢
        exact strLess_asymm _ _ h
  · have hd1 : a.IsDir ≠ b.IsDir := hd
    have hd2 : b.IsDir ≠ a.IsDir := fun e => hd e.symm
    rw [if_pos hd1] at h
    rw [if_pos hd2]
    cases hb : b.IsDir
    · rfl
    · rw [h, hb] at hd; exact absurd rfl hd

/-- Whenever `n` is not `less` than `p`, a file `p` is not followed by a directory `n`. -/
theorem less_false_dirs (k : SortBy) (p n : FileEntry) (h : less k n p = false) :
    p.IsDir = false → n.IsDir = false := by
  intro hp
  unfold less at h
  cases hn : n.IsDir
  · rfl
  · simp [hn, hp] at h

/-- The comparison by size, read on two entries of the same kind. -/
theorem less_size_false (p n : FileEntry) (hk : p.IsDir = n.IsDir)
    (h : less SortBySize n p = false) :
    n.Size ≤ p.Size ∧ (p.Size = n.Size → p.Name ≤ n.Name) := by
  unfold less at h
  rw [if_neg (fun e => e hk.symm), if_pos rfl] at h
  by_cases hs : n.Size = p.Size
  · rw [if_pos hs, strLess_eq_false_iff] at h
    exact ⟨le_of_eq hs, fun _ => h⟩
  · rw [if_neg hs] at h
    simp only [decide_eq_false_iff_not] at h
    exact ⟨by omega, fun e => absurd e.symm hs⟩

/-! ### The orders behind the three comparisons -/

theorem sizeOrdered_trans (a b c : FileEntry) (hab : sizeOrdered a b) (hbc : sizeOrdered b c) :
    sizeOrdered a c := by
  obtain ⟨hab1, hab2⟩ := hab
  obtain ⟨hbc1, hbc2⟩ := hbc
  refine ⟨fun ha => hbc1 (hab1 ha), fun hac => ?_⟩
  have hkab : a.IsDir = b.IsDir := by
    cases ha : a.IsDir
    · exact (hab1 ha).symm
    · cases hb : b.IsDir
      · have hc := hbc1 hb
        rw [ha, hc] at hac
        exact absurd hac (by decide)
      · rfl
  have hkbc : b.IsDir = c.IsDir := hkab.symm.trans hac
  obtain ⟨s1, n1⟩ := hab2 hkab
  obtain ⟨s2, n2⟩ := hbc2 hkbc
  refine ⟨le_trans s2 s1, fun hs => ?_⟩
  have e1 : a.Size = b.Size := le_antisymm (hs ▸ s2) s1
  have e2 : b.Size = c.Size := e1 ▸ hs
  exact le_trans (n1 e1) (n2 e2)

/-- Three entries in order agree in kind as soon as the outer two do. -/
theorem kind_between (a b c : FileEntry) (hab : a.IsDir = false → b.IsDir = false)
    (hbc : b.IsDir = false → c.IsDir = false) (hac : a.IsDir = c.IsDir) :
    a.IsDir = b.IsDir ∧ b.IsDir = c.IsDir := by
  cases ha : a.IsDir
  · have hb := hab ha
    rw [ha] at hac
    exact ⟨hb.symm, hb.trans hac⟩
  · cases hb : b.IsDir
    · have hc := hbc hb
      rw [ha, hc] at hac
      exact absurd hac (by decide)
    · rw [ha] at hac
      exact ⟨rfl, hac⟩

theorem nameOrdered_trans (a b c : FileEntry) (hab : nameOrdered a b) (hbc : nameOrdered b c) :
    nameOrdered a c := by
  refine ⟨fun ha => hbc.1 (hab.1 ha), fun hac => ?_⟩
  obtain ⟨k1, k2⟩ := kind_between a b c hab.1 hbc.1 hac
  exact le_trans (hab.2 k1) (hbc.2 k2)

theorem timeOrdered_trans (a b c : FileEntry) (hab : timeOrdered a b) (hbc : timeOrdered b c) :
    timeOrdered a c := by
  refine ⟨fun ha => hbc.1 (hab.1 ha), fun hac => ?_⟩
  obtain ⟨k1, k2⟩ := kind_between a b c hab.1 hbc.1 hac
  rcases hab.2 k1 with h1 | ⟨h1, h1'⟩ | ⟨h1, h1', n1⟩ <;>
    rcases hbc.2 k2 with h2 | ⟨h2, h2'⟩ | ⟨h2, h2', n2⟩
  · exact Or.inl (by omega)
  · exact Or.inl (by omega)
  · exact Or.inl (by omega)
  · exact Or.inl (by omega)
  · exact Or.inr (Or.inl ⟨by omega, by omega⟩)
  · exact Or.inr (Or.inl ⟨by omega, by omega⟩)
  · exact Or.inl (by omega)
  · exact Or.inr (Or.inl ⟨by omega, by omega⟩)
  · exact Or.inr (Or.inr ⟨by omega, by omega, le_trans n1 n2⟩)

/-- The comparison by name, read on two entries. -/
theorem less_name_false_iff (p n : FileEntry) :
    less SortByName n p = false ↔ nameOrdered p n := by
  have e1 : ¬ SortByName = SortBySize := by decide
  have e2 : ¬ SortByName = SortByModTime := by decide
  unfold less nameOrdered
  by_cases hk : n.IsDir = p.IsDir
  · rw [if_neg (fun e => e hk), if_neg e1, if_neg e2, strLess_eq_false_iff]
    exact ⟨fun h => ⟨fun hp => hk.trans hp, fun _ => h⟩, fun h => h.2 hk.symm⟩
  · rw [if_pos hk]
    constructor
    · intro hn
      refine ⟨fun _ => hn, fun e => absurd e.symm hk⟩
    · intro h
      cases hn : n.IsDir
      · rfl
      · cases hp : p.IsDir
        · have := h.1 hp
          rw [hn] at this
          exact absurd this (by decide)
        · rw [hn, hp] at hk
          exact absurd rfl hk

/-- The flag of a monotonic reading is clear in a wall word that holds nanoseconds only. -/
theorem land_hasMonotonic (x : Nat) (hx : x < 2 ^ 30) : x &&& hasMonotonic = 0 := by
  apply Nat.eq_of_testBit_eq
  intro i
  rw [Nat.testBit_and, Nat.zero_testBit]
  unfold hasMonotonic
  rw [Nat.testBit_two_pow]
  by_cases hi : 63 = i
  · subst hi
    have h63 : x < 2 ^ 63 := lt_of_lt_of_le hx (by decide)
    rw [Nat.testBit_lt_two_pow h63]
    rfl
  · simp [hi]

theorem Time.sec_plain (t : Time) (ht : t.wall < 2 ^ 30) : t.sec = t.ext := by
  unfold Time.sec
  rw [if_neg (by rw [land_hasMonotonic t.wall ht]; exact fun h => h rfl)]

theorem Time.nsec_plain (t : Time) (ht : t.wall < 2 ^ 30) : t.nsec = t.wall := by
  unfold Time.nsec
  exact Nat.mod_eq_of_lt ht

theorem Time.land_plain (t u : Time) (ht : t.wall < 2 ^ 30) :
    ¬ (t.wall &&& u.wall &&& hasMonotonic ≠ 0) := by
  have h : t.wall &&& u.wall < 2 ^ 30 := lt_of_le_of_lt Nat.and_le_left ht
  rw [land_hasMonotonic _ h]
  exact fun h => h rfl

theorem Time.After_plain (t u : Time) (ht : t.wall < 2 ^ 30) (hu : u.wall < 2 ^ 30) :
    t.After u = true ↔ (u.ext < t.ext ∨ (t.ext = u.ext ∧ u.wall < t.wall)) := by
  unfold Time.After
  rw [if_neg (Time.land_plain t u ht), Time.sec_plain t ht, Time.sec_plain u hu,
    Time.nsec_plain t ht, Time.nsec_plain u hu]
  simp only [Bool.or_eq_true, Bool.and_eq_true, decide_eq_true_eq, gt_iff_lt]

theorem Time.Before_plain (t u : Time) (ht : t.wall < 2 ^ 30) (hu : u.wall < 2 ^ 30) :
    t.Before u = true ↔ (t.ext < u.ext ∨ (t.ext = u.ext ∧ t.wall < u.wall)) := by
  unfold Time.Before
  rw [if_neg (Time.land_plain t u ht), Time.sec_plain t ht, Time.sec_plain u hu,
    Time.nsec_plain t ht, Time.nsec_plain u hu]
  simp only [Bool.or_eq_true, Bool.and_eq_true, decide_eq_true_eq]

theorem Time.Equal_plain (t u : Time) (ht : t.wall < 2 ^ 30) (hu : u.wall < 2 ^ 30) :
    t.Equal u = true ↔ (t.ext = u.ext ∧ t.wall = u.wall) := by
  unfold Time.Equal
  rw [if_neg (Time.land_plain t u ht), Time.sec_plain t ht, Time.sec_plain u hu,
    Time.nsec_plain t ht, Time.nsec_plain u hu]
  simp only [Bool.and_eq_true, decide_eq_true_eq]

/-- Two times in the same location are `==` exactly when their two words agree. -/
theorem Time.eq_iff_of_loc (t u : Time) (h : t.loc = u.loc) :
    t = u ↔ (t.ext = u.ext ∧ t.wall = u.wall) := by
  constructor
  · intro e; rw [e]; exact ⟨rfl, rfl⟩
  · intro e
    cases t
    cases u
    simp only [Time.mk.injEq]
    exact ⟨e.2, e.1, h⟩

/-- The comparison by modification time, read on two entries whose times carry no
monotonic reading and the same location. -/
theorem less_time_false (loc : Nat) (p n : FileEntry)
    (hp : p.ModTime.wall < 2 ^ 30 ∧ p.ModTime.loc = loc)
    (hn : n.ModTime.wall < 2 ^ 30 ∧ n.ModTime.loc = loc)
    (h : less SortByModTime n p = false) : timeOrdered p n := by
  refine ⟨less_false_dirs SortByModTime p n h, fun hk => ?_⟩
  have e1 : ¬ SortByModTime = SortBySize := by decide
  unfold less at h
  rw [if_neg (fun e => e hk.symm), if_neg e1, if_pos rfl] at h
  by_cases ht : n.ModTime = p.ModTime
  · rw [if_pos ht, strLess_eq_false_iff] at h
    exact Or.inr (Or.inr ⟨by rw [ht], by rw [ht], h⟩)
  · rw [if_neg ht] at h
    have hne : ¬ (n.ModTime.ext = p.ModTime.ext ∧ n.ModTime.wall = p.ModTime.wall) :=
      fun e => ht ((Time.eq_iff_of_loc _ _ (hn.2.trans hp.2.symm)).mpr e)
    have hna : ¬ (p.ModTime.ext < n.ModTime.ext ∨
        (n.ModTime.ext = p.ModTime.ext ∧ p.ModTime.wall < n.ModTime.wall)) := by
      rw [← Time.After_plain _ _ hn.1 hp.1, h]
      exact fun e => absurd e (by decide)
    by_cases hx : n.ModTime.ext < p.ModTime.ext
    · exact Or.inl hx
    · refine Or.inr (Or.inl ⟨?_, ?_⟩)
      · by_contra hh
        exact hna (Or.inl (by omega))
      · by_contra hh
        have he : n.ModTime.ext = p.ModTime.ext := by
          by_contra hh2
          exact hna (Or.inl (by omega))
        rcases Nat.lt_or_ge p.ModTime.wall n.ModTime.wall with h1 | h1
        · exact hna (Or.inr ⟨he, h1⟩)
        · exact hne ⟨he, by omega⟩

/-- Every comparison of `SortEntries` refines the order "no file before a directory". -/
theorem refines_kind (key : SortBy) :
    gosort.Refines (fun ei ej => less key ei ej)
      (fun p n : FileEntry => p.IsDir = false → n.IsDir = false) (fun _ => True) where
  h1 := fun a b _ _ h => less_false_dirs key a b (less_asymm key a b h)
  h2 := fun a b _ _ h => less_false_dirs key b a h
  trans := fun _ _ _ hab hbc ha => hbc (hab ha)

/-- The comparison by size refines `sizeOrdered`. -/
theorem refines_size :
    gosort.Refines (fun ei ej => less SortBySize ei ej) sizeOrdered (fun _ => True) where
  h1 := fun a b _ _ h =>
    ⟨less_false_dirs SortBySize a b (less_asymm SortBySize a b h),
      fun hk => less_size_false a b hk (less_asymm SortBySize a b h)⟩
  h2 := fun a b _ _ h =>
    ⟨less_false_dirs SortBySize b a h, fun hk => less_size_false b a hk h⟩
  trans := sizeOrdered_trans

/-- The comparison by name refines its own "not less" relation, which is transitive. -/
theorem refines_name :
    gosort.Refines (fun ei ej => less SortByName ei ej)
      (fun p n => less SortByName n p = false) (fun _ => True) where
  h1 := fun a b _ _ h => less_asymm SortByName a b h
  h2 := fun _ _ _ _ h => h
  trans := fun a b c hab hbc =>
    (less_name_false_iff a c).mpr
      (nameOrdered_trans a b c ((less_name_false_iff a b).mp hab)
        ((less_name_false_iff b c).mp hbc))

/-- The comparison by modification time refines `timeOrdered` on the entries whose times
carry no monotonic reading and the location `loc`. -/
theorem refines_time (loc : Nat) :
    gosort.Refines (fun ei ej => less SortByModTime ei ej) timeOrdered
      (fun e => e.ModTime.wall < 2 ^ 30 ∧ e.ModTime.loc = loc) where
  h1 := fun a b ha hb h => less_time_false loc a b ha hb (less_asymm SortByModTime a b h)
  h2 := fun a b ha hb h => less_time_false loc b a hb ha h
  trans := timeOrdered_trans

/-! ### The claims on `SortEntries` -/

/-- C1: for every list of entries and every sort key, `SortEntries` rearranges the entries
so that no file (`IsDir = false`) stands before a directory (`IsDir = true`): all directories
come before all files. -/
theorem SortEntries_dirs_first (entries : List FileEntry) (key : SortBy) :
    (SortEntries entries key).Perm entries ∧
    List.Pairwise (fun a b => ¬ (a.IsDir = false ∧ b.IsDir = true))
      (SortEntries entries key) := by
  obtain ⟨hperm, hpw⟩ := gosort.sortSlice_sorted (refines_kind key) entries
    (fun _ _ => trivial)
  refine ⟨hperm, List.Pairwise.imp ?_ hpw⟩
  intro a b h hab
  rw [h hab.1] at hab
  exact absurd hab.2 (by decide)

/-- C2: in the result of `SortEntries(entries, SortBySize)`, which is a rearrangement of
the entries, any two files A, B with A before B have `A.Size >= B.Size`, and
`A.Name <= B.Name` when the sizes are equal; the directory of the scenario
(`sub`, `b.txt` of 500 bytes, `a.txt` of 10 bytes) sorts to `[sub, b.txt, a.txt]`. -/
theorem SortEntries_by_size (entries : List FileEntry) :
    (SortEntries entries SortBySize).Perm entries ∧
    List.Pairwise (fun a b => a.IsDir = false → b.IsDir = false →
        b.Size ≤ a.Size ∧ (a.Size = b.Size → a.Name ≤ b.Name))
      (SortEntries entries SortBySize) ∧
    (SortEntries examples.entriesX SortBySize).map (fun x => (x.Name, x.Size)) =
      [("sub", 4096), ("b.txt", 500), ("a.txt", 10)] := by
  obtain ⟨hperm, hpw⟩ := gosort.sortSlice_sorted refines_size entries (fun _ _ => trivial)
  refine ⟨hperm, List.Pairwise.imp ?_ hpw, by decide⟩
  intro a b h ha hb
  exact h.2 (ha.trans hb.symm)

/-- C3 (counterexample): two files `b` and `a` whose modification times denote the same
instant, one carried with the local location and one in UTC, are left by
`SortEntries(_, SortByModTime)` in the order `[b, a]`: `b` stands before `a` although the
instants are equal and `b` is not `<=` `a` by name, so the result is not ordered as the
claim says. -/
theorem SortEntries_by_modtime_same_instant :
    SortEntries examples.sameInstant SortByModTime = examples.sameInstant ∧
    examples.sameInstant.map (fun x => (x.Name, x.IsDir)) = [("b", false), ("a", false)] ∧
    examples.today.Equal examples.todayUTC = true ∧
    examples.today.After examples.todayUTC = false ∧
    examples.today.Before examples.todayUTC = false ∧
    ¬ List.Pairwise (fun a b => a.IsDir = b.IsDir →
        a.ModTime.Before b.ModTime = false ∧
        (a.ModTime.Equal b.ModTime = true → a.Name ≤ b.Name))
      (SortEntries examples.sameInstant SortByModTime) := by
  have hres : SortEntries examples.sameInstant SortByModTime = examples.sameInstant := by
    decide
  refine ⟨hres, by decide, by decide, by decide, by decide, ?_⟩
  rw [hres]
  intro hpw
  have h := (List.pairwise_pair.mp hpw) rfl
  have hle : "b" ≤ "a" := h.2 (by decide)
  have hlt : "a" < "b" := (strLess_iff "a" "b").mp (by decide)
  exact absurd hle (not_le.mpr hlt)

/-- C3 (amended): for every list of entries whose modification times carry no monotonic
clock reading (the wall word holds the nanoseconds only) and one and the same location, as
the values of `info.ModTime()` that `ListDirectory` stores do, the result of
`SortEntries(entries, SortByModTime)` is a rearrangement of the entries in which, for any
two entries A, B of the same kind with A before B, A.ModTime is not earlier than B.ModTime
and `A.Name <= B.Name` whenever the two times denote the same instant. -/
theorem SortEntries_by_modtime_plain (entries : List FileEntry) (loc : Nat)
    (h : ∀ e ∈ entries, e.ModTime.wall < 2 ^ 30 ∧ e.ModTime.loc = loc) :
    (SortEntries entries SortByModTime).Perm entries ∧
    List.Pairwise (fun a b => a.IsDir = b.IsDir →
        a.ModTime.Before b.ModTime = false ∧
        (a.ModTime.Equal b.ModTime = true → a.Name ≤ b.Name))
      (SortEntries entries SortByModTime) := by
  obtain ⟨hperm, hpw⟩ := gosort.sortSlice_sorted (refines_time loc) entries h
  refine ⟨hperm, List.Pairwise.imp_of_mem ?_ hpw⟩
  intro a b ha hb hab hk
  have hwa := h a (hperm.subset ha)
  have hwb := h b (hperm.subset hb)
  have ho := hab.2 hk
  constructor
  · rw [← Bool.not_eq_true, Time.Before_plain a.ModTime b.ModTime hwa.1 hwb.1]
    rcases ho with h1 | ⟨h1, h2⟩ | ⟨h1, h2, _⟩ <;> omega
  · intro he
    rw [Time.Equal_plain a.ModTime b.ModTime hwa.1 hwb.1] at he
    rcases ho with h1 | ⟨h1, h2⟩ | ⟨h1, h2, h3⟩
    · omega
    · omega
    · exact h3

/-- C3 (amended), on the listing of `/tmp/x`: all times are local without monotonic
reading, and the result is ordered by time, then name. -/
theorem SortEntries_by_modtime_plain_witness :
    (∀ e ∈ examples.entriesX, e.ModTime.wall < 2 ^ 30 ∧ e.ModTime.loc = 1) ∧
    ((SortEntries examples.entriesX SortByModTime).Perm examples.entriesX ∧
      List.Pairwise (fun a b => a.IsDir = b.IsDir →
          a.ModTime.Before b.ModTime = false ∧
          (a.ModTime.Equal b.ModTime = true → a.Name ≤ b.Name))
        (SortEntries examples.entriesX SortByModTime)) :=
  ⟨by decide, SortEntries_by_modtime_plain examples.entriesX 1 (by decide)⟩

/-- The comparison by modification time is no ordering once two equal instants are carried
in different locations: of three files modified at the same instant, `z` (local), `m` (UTC)
and `a` (local), the slice `[z, m, a]` is left as it is, so `z` stands before `a` although
their `ModTime` values are even `==` and `a` is `less` than `z`. -/
theorem SortEntries_by_modtime_three :
    SortEntries examples.sameInstantThree SortByModTime = examples.sameInstantThree ∧
    examples.sameInstantThree.map (fun x => (x.Name, x.ModTime.loc)) =
      [("z", 1), ("m", 0), ("a", 1)] ∧
    less SortByModTime
      { Name := "a", Path := "/d/a", IsDir := false, Size := 1, ModTime := examples.today,
        Mode := 420 }
      { Name := "z", Path := "/d/z", IsDir := false, Size := 1, ModTime := examples.today,
        Mode := 420 } = true := by
  refine ⟨by decide, by decide, by decide⟩

/-- Above 12 entries `sort.Slice` is the quicksort and not stable: of the twenty files of
`examples.twenty` the five named `a` stand in the slice with the sizes 3, 7, 11, 15, 19 in
this order and leave `SortEntries(_, SortByName)` in the order 7, 19, 15, 3, 11. -/
theorem SortEntries_by_name_twenty :
    (SortEntries examples.twenty SortByName).map (fun x => (x.Name, x.Size)) =
      [("a", 7), ("a", 19), ("a", 15), ("a", 3), ("a", 11), ("b", 10), ("b", 14), ("b", 18),
       ("b", 2), ("b", 6), ("c", 9), ("c", 13), ("c", 17), ("c", 5), ("c", 1), ("d", 4),
       ("d", 12), ("d", 0), ("d", 8), ("d", 16)] := by
  decide

/-- C4: `SortEntries` with `SortByName` is idempotent: sorting the result of
`SortEntries(_, SortByName)` once more returns exactly the same sequence, whatever the
entries are (entries of equal `Name` and `IsDir` that differ elsewhere included). -/
theorem SortEntries_by_name_idempotent (entries : List FileEntry) :
    SortEntries (SortEntries entries SortByName) SortByName = SortEntries entries SortByName :=
  gosort.sortSlice_ordered
    (gosort.ordered_of_pairwise _ _
      (gosort.sortSlice_sorted refines_name entries (fun _ _ => trivial)).2)

end filesystem

/-! ## Theorems: the explorer -/

namespace ui

open filesystem

/-! ### Strings and the hidden-exclusion test -/

theorem containsChars_iff (s sub : List Char) : containsChars s sub = true ↔ sub <:+: s := by
  induction s with
  | nil =>
    simp only [containsChars, List.isPrefixOf_iff_prefix, List.infix_nil, List.prefix_nil]
  | cons c s ih =>
    simp only [containsChars, Bool.or_eq_true, List.isPrefixOf_iff_prefix, ih,
      List.infix_cons_iff]

/-- The function `strings.Contains` of the model is the substring relation. -/
theorem stringsContains_iff (s substr : String) :
    stringsContains s substr = true ↔ substr.data <:+: s.data :=
  containsChars_iff s.data substr.data

/-- The test written out in `ui.go` is the hidden-exclusion rule. -/
theorem skipHidden_eq_false_iff (showHidden : Bool) (x : FileEntry) :
    skipHidden showHidden x = false ↔ (showHidden = true ∨ ¬ ['.'] <+: x.Name.data) := by
  unfold skipHidden
  cases showHidden <;> cases hx : x.Name.data with
  | nil => simp
  | cons c cs =>
    by_cases hc : c = '.'
    · subst hc
      simp [List.prefix_cons_inj]
    · simp [hc, List.cons_prefix_cons]
      try (intro h; exact absurd h.symm hc)

/-! ### The loops over the entries -/

theorem visibleEntries_foldl (showHidden : Bool) (l acc : List FileEntry) :
    l.foldl (fun visible entry =>
      if skipHidden showHidden entry then visible else visible ++ [entry]) acc =
    acc ++ l.filter (fun x => !skipHidden showHidden x) := by
  induction l generalizing acc with
  | nil => simp
  | cons x l ih =>
    rw [List.foldl_cons, ih]
    cases hx : skipHidden showHidden x <;> simp [hx]

/-- The list `visibleEntries` built by `openSelected` and `updateListPreview` holds the
entries that survive the hidden-exclusion rule, in their order. -/
theorem visibleEntries_eq (e : Explorer) :
    visibleEntries e = specVisible e.showHidden e.entries := by
  unfold visibleEntries specVisible
  rw [visibleEntries_foldl, List.nil_append]
  apply List.filter_congr
  intro x _
  cases hx : skipHidden e.showHidden x
  · simpa using (skipHidden_eq_false_iff e.showHidden x).mp hx
  · have h : ¬ (e.showHidden = true ∨ ¬ ['.'] <+: x.Name.data) := by
      rw [← skipHidden_eq_false_iff, hx]; decide
    simpa using h

theorem filterSearch_foldl (sys : Sys) (showHidden : Bool) (query : String)
    (l : List FileEntry) (acc : ListView × Int) :
    l.foldl (filterSearchItem sys showHidden query) acc =
    ({ items := acc.1.items ++ (l.filter (fun x => !skipHidden showHidden x &&
          stringsContains (sys.toLower x.Name) query)).map (searchItem sys),
       currentItem := acc.1.currentItem },
     acc.2 + ((l.filter (fun x => !skipHidden showHidden x &&
          stringsContains (sys.toLower x.Name) query)).length : Int)) := by
  induction l generalizing acc with
  | nil => simp
  | cons x l ih =>
    rw [List.foldl_cons, ih]
    unfold filterSearchItem
    cases hx : skipHidden showHidden x
    · cases hc : stringsContains (sys.toLower x.Name) query
      · simp [hx, hc]
      · simp [hx, hc, ListView.AddItem]
        omega
    · simp [hx]

theorem filterSearchLoop_eq (sys : Sys) (e : Explorer) (query : String) :
    filterSearchLoop sys e (sys.toLower query) =
    ({ items := (specMatches sys e.showHidden query e.entries).map (searchItem sys),
       currentItem := 0 },
     ((specMatches sys e.showHidden query e.entries).length : Int)) := by
  have hf : e.entries.filter (fun x => !skipHidden e.showHidden x &&
      stringsContains (sys.toLower x.Name) (sys.toLower query)) =
      specMatches sys e.showHidden query e.entries := by
    unfold specMatches
    apply List.filter_congr
    intro x _
    rw [Bool.eq_iff_iff]
    simp only [Bool.and_eq_true, Bool.not_eq_true', decide_eq_true_eq,
      skipHidden_eq_false_iff, stringsContains_iff]
  unfold filterSearchLoop
  rw [filterSearch_foldl, hf]
  simp [ListView.Clear]

/-! ### `refresh` and the fields it leaves alone -/

theorem updatePreview_fields (sys : Sys) (e : Explorer) (entry : FileEntry) :
    (updatePreview sys e entry).previewPath = entry.Path ∧
    (updatePreview sys e entry).currentPath = e.currentPath ∧
    (updatePreview sys e entry).entries = e.entries ∧
    (updatePreview sys e entry).parentEntries = e.parentEntries ∧
    (updatePreview sys e entry).selectedIndex = e.selectedIndex ∧
    (updatePreview sys e entry).showHidden = e.showHidden ∧
    (updatePreview sys e entry).searchQuery = e.searchQuery ∧
    (updatePreview sys e entry).list = e.list := by
  unfold updatePreview
  split <;> simp

theorem updateStatusBar_fields (e : Explorer) :
    (updateStatusBar e).currentPath = e.currentPath ∧
    (updateStatusBar e).entries = e.entries ∧
    (updateStatusBar e).parentEntries = e.parentEntries ∧
    (updateStatusBar e).selectedIndex = e.selectedIndex ∧
    (updateStatusBar e).showHidden = e.showHidden ∧
    (updateStatusBar e).searchQuery = e.searchQuery ∧
    (updateStatusBar e).list = e.list ∧
    (updateStatusBar e).previewPath = e.previewPath := by
  unfold updateStatusBar
  split <;> simp

theorem previewSelected_fields (sys : Sys) (e : Explorer) :
    (previewSelected sys e).currentPath = e.currentPath ∧
    (previewSelected sys e).entries = e.entries ∧
    (previewSelected sys e).parentEntries = e.parentEntries ∧
    (previewSelected sys e).selectedIndex = e.selectedIndex ∧
    (previewSelected sys e).showHidden = e.showHidden ∧
    (previewSelected sys e).searchQuery = e.searchQuery ∧
    (previewSelected sys e).list = e.list := by
  unfold previewSelected
  split
  · split
    · rename_i entry _
      exact (updatePreview_fields sys e entry).2
    · simp
  · simp

/-- The method `refresh` changes neither the path, the two listings, the selection nor the
two filters. -/
theorem refresh_fields (sys : Sys) (e : Explorer) :
    (refresh sys e).currentPath = e.currentPath ∧
    (refresh sys e).entries = e.entries ∧
    (refresh sys e).parentEntries = e.parentEntries ∧
    (refresh sys e).selectedIndex = e.selectedIndex ∧
    (refresh sys e).showHidden = e.showHidden ∧
    (refresh sys e).searchQuery = e.searchQuery := by
  have key : ∀ e1 : Explorer,
      (previewSelected sys (updateStatusBar e1)).currentPath = e1.currentPath ∧
      (previewSelected sys (updateStatusBar e1)).entries = e1.entries ∧
      (previewSelected sys (updateStatusBar e1)).parentEntries = e1.parentEntries ∧
      (previewSelected sys (updateStatusBar e1)).selectedIndex = e1.selectedIndex ∧
      (previewSelected sys (updateStatusBar e1)).showHidden = e1.showHidden ∧
      (previewSelected sys (updateStatusBar e1)).searchQuery = e1.searchQuery := by
    intro e1
    obtain ⟨h1, h2, h3, h4, h5, h6, -⟩ := previewSelected_fields sys (updateStatusBar e1)
    obtain ⟨g1, g2, g3, g4, g5, g6, -, -⟩ := updateStatusBar_fields e1
    exact ⟨h1.trans g1, h2.trans g2, h3.trans g3, h4.trans g4, h5.trans g5, h6.trans g6⟩
  exact key _

/-- What `refresh` previews: the entry at `selectedIndex` of `entries` itself, hidden
entries included; the preview stays when the index is outside `entries`. -/
theorem refresh_previewPath (sys : Sys) (e : Explorer) :
    (refresh sys e).previewPath =
      if e.selectedIndex ≥ 0 ∧ e.selectedIndex < e.entries.length then
        match e.entries[e.selectedIndex.toNat]? with
        | some entry => entry.Path
        | none => e.previewPath
      else e.previewPath := by
  have key : ∀ e1 : Explorer, (previewSelected sys (updateStatusBar e1)).previewPath =
      if e1.selectedIndex ≥ 0 ∧ e1.selectedIndex < e1.entries.length then
        match e1.entries[e1.selectedIndex.toNat]? with
        | some entry => entry.Path
        | none => e1.previewPath
      else e1.previewPath := by
    intro e1
    obtain ⟨-, g2, -, g4, -, -, -, g8⟩ := updateStatusBar_fields e1
    unfold previewSelected
    rw [g2, g4]
    split
    · split
      · rename_i entry _
        exact (updatePreview_fields sys (updateStatusBar e1) entry).1
      · exact g8
    · exact g8
  exact key _

/-! ### The claims on the explorer -/

/-- C5: when `filepath.Abs` fails on `path`, or when listing the resolved directory
fails, `navigate(path)` leaves `currentPath`, `entries`, `parentEntries`, `selectedIndex`,
`showHidden` and `searchQuery` exactly as they were. -/
theorem navigate_failure_unchanged (sys : Sys) (e : Explorer) (path : String)
    (h : (∃ err, sys.abs path = Except.error err) ∨
      (∃ absPath err, sys.abs path = Except.ok absPath ∧
        ListDirectory sys absPath = Except.error err)) :
    (navigate sys e path).currentPath = e.currentPath ∧
    (navigate sys e path).entries = e.entries ∧
    (navigate sys e path).parentEntries = e.parentEntries ∧
    (navigate sys e path).selectedIndex = e.selectedIndex ∧
    (navigate sys e path).showHidden = e.showHidden ∧
    (navigate sys e path).searchQuery = e.searchQuery := by
  unfold navigate
  rcases h with ⟨err, h1⟩ | ⟨absPath, err, h1, h2⟩
  · simp [h1]
  · simp [h1, h2]

/-- C5, at the directory `/nope` that does not exist: the explorer standing in `/d` keeps
its six fields. -/
theorem navigate_failure_unchanged_witness :
    ((∃ err, examples.sysA.abs "/nope" = Except.error err) ∨
      (∃ absPath err, examples.sysA.abs "/nope" = Except.ok absPath ∧
        ListDirectory examples.sysA absPath = Except.error err)) ∧
    ((navigate examples.sysA examples.explorerA "/nope").currentPath =
        examples.explorerA.currentPath ∧
      (navigate examples.sysA examples.explorerA "/nope").entries =
        examples.explorerA.entries ∧
      (navigate examples.sysA examples.explorerA "/nope").parentEntries =
        examples.explorerA.parentEntries ∧
      (navigate examples.sysA examples.explorerA "/nope").selectedIndex =
        examples.explorerA.selectedIndex ∧
      (navigate examples.sysA examples.explorerA "/nope").showHidden =
        examples.explorerA.showHidden ∧
      (navigate examples.sysA examples.explorerA "/nope").searchQuery =
        examples.explorerA.searchQuery) :=
  ⟨Or.inr ⟨"/nope", "failed to read directory /nope: no such file or directory", rfl, rfl⟩,
   navigate_failure_unchanged examples.sysA examples.explorerA "/nope"
    (Or.inr ⟨"/nope", "failed to read directory /nope: no such file or directory", rfl, rfl⟩)⟩

/-- What `openSelected` does: it takes the entry at the current item of the list among the
entries that survive the hidden-exclusion rule alone, and nothing happens when the index is
outside that sequence. -/
theorem openSelected_eq (sys : Sys) (e : Explorer) :
    openSelected sys e =
      if e.list.currentItem < 0 ∨ e.list.currentItem ≥ (specVisible e.showHidden e.entries).length
      then e
      else match (specVisible e.showHidden e.entries)[e.list.currentItem.toNat]? with
        | none => e
        | some entry => if entry.IsDir then navigate sys e entry.Path else openFile e entry.Path := by
  unfold openSelected
  simp only [visibleEntries_eq, ListView.GetCurrentItem]

/-- C6 (evaluation at the failing input): in `/d` with the files `alpha`, `beta`, `gamma`,
after `filterSearch("b")` the list shows the single item `beta` with the current item 0,
the entries that survive both rules are `[beta]`, and `openSelected` opens `/d/alpha`. -/
theorem openSelected_after_search :
    examples.explorerB.list.items.map (fun i => i.mainText) = ["[white]📄 beta[white]"] ∧
    examples.explorerB.list.GetCurrentItem = 0 ∧
    (specMatches examples.sysA examples.explorerB.showHidden "b"
      examples.explorerB.entries).map (fun x => x.Path) = ["/d/beta"] ∧
    examples.explorerB.opened = [] ∧
    (openSelected examples.sysA examples.explorerB).opened = ["/d/alpha"] := by
  refine ⟨by decide, by decide, by decide, by decide, by decide⟩

/-- C7: for every list of entries, every `showHidden` and every query (the non-empty ones
included), the items that `filterSearch(query)` places in the list are, in the order of the
entries, the items of exactly those entries that are not hidden-excluded and whose
lower-cased name contains the lower-cased query; the count of the loop is their number and
the status bar reports it. For the query `b` on `alpha`, `beta`, `gamma` that is `beta`
alone. -/
theorem filterSearch_items (sys : Sys) (e : Explorer) (query : String) :
    (filterSearch sys e query).list.items =
      (specMatches sys e.showHidden query e.entries).map (searchItem sys) ∧
    (filterSearchLoop sys e (sys.toLower query)).2 =
      ((specMatches sys e.showHidden query e.entries).length : Int) ∧
    (filterSearch sys e query).statusBar =
      (if (specMatches sys e.showHidden query e.entries).length = 0
        then " [red]No matches found"
        else " [green]Found " ++
          toString ((specMatches sys e.showHidden query e.entries).length : Int) ++
          " matches") ∧
    (specMatches examples.sysA false "b" examples.explorerA.entries).map (fun x => x.Name) =
      ["beta"] ∧
    (filterSearch examples.sysA examples.explorerA "b").list.items =
      [{ mainText := "[white]📄 beta[white]", secondaryText := "    2 B" }] ∧
    (filterSearch examples.sysA examples.explorerA "b").statusBar =
      " [green]Found 1 matches" := by
  refine ⟨?_, ?_, ?_, by decide, by decide, by decide⟩
  · unfold filterSearch
    simp only [filterSearchLoop_eq]
    split <;> rfl
  · rw [filterSearchLoop_eq]
  · unfold filterSearch
    simp only [filterSearchLoop_eq]
    by_cases h : (specMatches sys e.showHidden query e.entries).length = 0
    · simp [h]
    · have h2 : ¬ (((specMatches sys e.showHidden query e.entries).length : Int) = 0) := by
        omega
      simp [h, h2]

/-- C8 (counterexample): in `/d` with `alpha`, `beta`, `gamma`, after a search for `b` the
empty query is submitted: the list still holds the single item of `beta`, while three
entries survive the hidden-exclusion rule and `refresh` would show three items. -/
theorem searchDone_empty_keeps_narrowed_list :
    (searchDone examples.sysA examples.explorerB Key.Enter "").list.items =
      [{ mainText := "[white]📄 beta[white]", secondaryText := "    2 B" }] ∧
    (specVisible (searchDone examples.sysA examples.explorerB Key.Enter "").showHidden
      (searchDone examples.sysA examples.explorerB Key.Enter "").entries).map
        (fun x => x.Name) = ["alpha", "beta", "gamma"] ∧
    (searchDone examples.sysA examples.explorerB Key.Enter "").list.items ≠
      (refresh examples.sysA
        (searchDone examples.sysA examples.explorerB Key.Enter "")).list.items := by
  refine ⟨by decide, by decide, by decide⟩

/-- C8 (amended): submitting the empty query in the search prompt changes nothing but the
view shown: the list, and with it every other field of the explorer, is what it was, so a
list narrowed by an earlier search stays narrowed. -/
theorem searchDone_empty_query (sys : Sys) (e : Explorer) :
    (searchDone sys e Key.Enter "").list = e.list ∧
    searchDone sys e Key.Enter "" = { e with root := Root.layout } := by
  constructor <;> simp [searchDone, showLayout]

/-- What `navigate` does to `parentEntries` when it succeeds: off the root they become the
listing of the parent (empty when that listing fails); at the root, where the parent of the
path is the path itself, they are left as they were. -/
theorem navigate_parentEntries (sys : Sys) (e : Explorer) (path absPath : String)
    (entries : List FileEntry) (h1 : sys.abs path = Except.ok absPath)
    (h2 : ListDirectory sys absPath = Except.ok entries) :
    (navigate sys e path).currentPath = absPath ∧
    (navigate sys e path).parentEntries =
      (if sys.dir absPath ≠ absPath then
        match ListDirectory sys (sys.dir absPath) with
        | .ok parentEntries => parentEntries
        | .error _ => []
      else e.parentEntries) := by
  unfold navigate
  simp only [h1, h2]
  obtain ⟨r1, -, r3, -⟩ := refresh_fields sys
    { (if sys.dir absPath ≠ absPath then
        match ListDirectory sys (sys.dir absPath) with
        | .ok parentEntries => { { e with currentPath := absPath } with
            parentEntries := parentEntries }
        | .error _ => { { e with currentPath := absPath } with parentEntries := [] }
      else { e with currentPath := absPath }) with entries := entries, selectedIndex := 0 }
  refine ⟨r1.trans ?_, r3.trans ?_⟩
  · split
    · split <;> rfl
    · rfl
  · split
    · split <;> simp_all
    · rfl

/-- C9 (evaluation at the failing input): from `/d`, where `parentEntries` is the listing
`[d]` of the root, `navigate("/")` succeeds and makes the root the current path, whose
parent is the root itself; `parentEntries` still is `[d]`, not empty. -/
theorem navigate_root_keeps_parentEntries :
    examples.explorerA.currentPath = "/d" ∧
    examples.explorerA.parentEntries.map (fun x => x.Path) = ["/d"] ∧
    (navigate examples.sysA examples.explorerA "/").currentPath = "/" ∧
    examples.sysA.dir "/" = "/" ∧
    (navigate examples.sysA examples.explorerA "/").entries.map (fun x => x.Path) = ["/d"] ∧
    (navigate examples.sysA examples.explorerA "/").parentEntries =
      examples.explorerA.parentEntries ∧
    (navigate examples.sysA examples.explorerA "/").parentEntries ≠ [] := by
  refine ⟨by decide, by decide, by decide, by decide, by decide, by decide, by decide⟩

/-- C10 (evaluation at the failing input): in `/r` with the entries `.git` and `a.txt`,
`showHidden` false and `selectedIndex` 0, the only entry that survives the hidden-exclusion
rule is `a.txt`, yet `refresh` previews the hidden `.git`; `updateListPreview`, on the same
state, previews `a.txt`. -/
theorem refresh_previews_hidden_entry :
    examples.explorerH.entries.map (fun x => x.Name) = [".git", "a.txt"] ∧
    examples.explorerH.showHidden = false ∧
    examples.explorerH.selectedIndex = 0 ∧
    (specVisible examples.explorerH.showHidden examples.explorerH.entries).map
      (fun x => x.Path) = ["/r/a.txt"] ∧
    (refresh examples.sysH examples.explorerH).list.items.map (fun i => i.mainText) =
      ["[white]📄  a.txt[white]"] ∧
    examples.explorerH.previewPath = "/r/.git" ∧
    (refresh examples.sysH examples.explorerH).previewPath = "/r/.git" ∧
    (updateListPreview examples.sysH (refresh examples.sysH examples.explorerH)).previewPath =
      "/r/a.txt" := by
  refine ⟨by decide, by decide, by decide, by decide, by decide, by decide, by decide,
    by decide⟩

end ui
